import Mathlib

/-!
# Verification of the `novomatic_tests` sources

A shallow embedding of `src/fast_remove.hpp`, `src/string_compr.hpp` and
`src/shapes.hpp`, followed by the proofs of their properties.

## Reading of `shapes.hpp`

The arithmetic of the C++ `float` has two readings.

* The exact reading.  A `float` is an element of a linearly ordered field `K` and
  the square root of `<cmath>` is a parameter `sqrt : K → K` of every function
  whose C++ original reaches `Vec3::norm`.  The theorems on norms instantiate
  `K := ℝ` and `sqrt := Real.sqrt`.  Properties stated for exact arithmetic are
  proved in this reading, and so are evaluations on inputs where every
  comparison of the source has the same outcome with and without rounding.
* The binary32 reading (namespace `Fp`).  The same expressions, with the rounding
  `round32` of the binary32 format applied to the result of every arithmetic
  operation.  It evaluates the code on inputs where rounding decides the
  outcome.  Infinities and NaN are not modelled.

Division follows the field convention `x / 0 = 0`.  The only division whose
divisor can vanish in the source is the one of `Vec3::projection_onto` when its
argument is the zero vector (`Vec3::normalized` guards its own division).

The comparator of `std::min_element` in `support<Tetrahedron>` calls `abs`
without qualification.  The file includes `<cmath>` and `<array>` only, so the
call resolves to the C function `int abs(int)` and both cosines are converted to
`int` first (`toInt`).

## Reading of `fast_remove.hpp` and `string_compr.hpp`

A sequence container is the list of its elements and an iterator is a position.
A `std::string` is the list of its characters.  A call without defined
behaviour, or one that does not return, has the result `none`.  The counter
`int n_cons` overflows when it is incremented at `INT_MAX = 2 ^ 31 - 1`.  Values
of type `size_t` are natural numbers below `2 ^ 64`: the sum of
`get_decrypt_size` is taken modulo `2 ^ 64`, and reading a count of `2 ^ 64` or
more from the stream fails.
-/

/-! ## `fast_remove.hpp` -/

namespace FastRemove

/-- Source: `std::swap(*a, *b)` on two positions of a sequence container; `none`
when a position cannot be dereferenced. -/
def swap_at {α : Type} (container : List α) (a b : Nat) : Option (List α) :=
  match container[a]?, container[b]? with
  | some x, some y => some ((container.set a y).set b x)
  | _, _ => none

/-- Source: `void fast_erase(Container &container, typename Container::iterator
to_erase)`.  The container is the list of its elements, the iterator a position
in it; the result is the container after the call.  `std::prev(container.end())`
is position `size - 1`; the call has no defined behaviour (`none`) on an empty
container or with an iterator that cannot be dereferenced. -/
def fast_erase {α : Type} (container : List α) (to_erase : Nat) : Option (List α) :=
  if container.length = 0 then none
  else
    let last_element := container.length - 1
    (swap_at container to_erase last_element).map fun swapped =>
      swapped.eraseIdx last_element

end FastRemove

/-! ## `string_compr.hpp` -/

namespace StringCompr

/-- Source: `using CharCount = std::pair<char, size_t>`. -/
abbrev CharCount := Char × Nat

/-- Source: `using CharCountVector = std::vector<CharCount>`. -/
abbrev CharCountVector := List CharCount

/-- The character `'\0'`. -/
def NUL : Char := Char.ofNat 0

/-- Source: `text[i]` on a `const std::string`: the character at position `i`,
and `'\0'` at position `size()`. -/
def charAt (text : List Char) (i : Nat) : Char :=
  text.getD i NUL

/-- The largest value of the type `int`. -/
def INT_MAX : Nat :=
  2 ^ 31 - 1

/-- The local variables of the loop of `get_number_of_cons_substrings`.  The
`int` counter `n_cons` starts at `1` and only grows, so it is kept as a natural
number that never exceeds `INT_MAX`. -/
structure RunState where
  counts : CharCountVector
  last_char : Char
  n_cons : Nat

/-- The body of the loop of `get_number_of_cons_substrings` for the character
`curr_char = text[i]`.  `n_cons++` on an `int` that holds `INT_MAX` is a signed
overflow, for which the language defines no behaviour: `none`. -/
def runStep (st : RunState) (curr_char : Char) : Option RunState :=
  if curr_char ≠ st.last_char then
    some ⟨st.counts ++ [(st.last_char, st.n_cons)], curr_char, 1⟩
  else if st.n_cons < INT_MAX then
    some ⟨st.counts, st.last_char, st.n_cons + 1⟩
  else none

/-- Source: `CharCountVector get_number_of_cons_substrings(const std::string
&text)`; the loop runs over `i = 1, ..., text.size()`.  The result is `none`
when the counter overflows, that is when `text` holds `2 ^ 31` or more equal
characters in a row. -/
def get_number_of_cons_substrings (text : List Char) : Option CharCountVector :=
  ((List.range' 1 text.length).foldlM (fun st i => runStep st (charAt text i))
    ⟨[], charAt text 0, 1⟩).map fun st => st.counts

/-- Source: `size_t numDigits(T number)`: the number of times `number` can be
divided by ten before it is zero. -/
def numDigits : Nat → Nat
  | 0 => 0
  | n + 1 => numDigits ((n + 1) / 10) + 1
decreasing_by exact Nat.div_lt_self (Nat.succ_pos n) (by decide)

/-- Source: `size_t get_encrypt_size(const CharCountVector &char_counts)`.  Every
summand is at most `21` and a vector holds fewer than `2 ^ 59` pairs of `16`
bytes, so the `size_t` sum cannot wrap. -/
def get_encrypt_size (char_counts : CharCountVector) : Nat :=
  char_counts.foldl (fun last pair => last + 1 + numDigits pair.2) 0

/-- The character of the decimal digit `d`. -/
def digitChar (d : Nat) : Char :=
  Char.ofNat (48 + d)

/-- Source: `std::to_string(count)` for an unsigned `count`: its decimal
representation, most significant digit first. -/
def to_string (n : Nat) : List Char :=
  if n < 10 then [digitChar n] else to_string (n / 10) ++ [digitChar (n % 10)]
decreasing_by omega

/-- Source: `std::string encrypt_string(const std::string &to_encrypt)`; `none`
when `get_number_of_cons_substrings` has no defined result. -/
def encrypt_string (to_encrypt : List Char) : Option (List Char) :=
  if to_encrypt = [] then some []
  else
    (get_number_of_cons_substrings to_encrypt).map fun char_counts =>
      char_counts.foldl (fun encrypted pair => encrypted ++ (to_string pair.2 ++ [pair.1])) []

/-- Source: `size_t get_decrypt_size(const CharCountVector &char_counts)`: the
sum of the counts in `size_t` arithmetic, that is modulo `2 ^ 64`. -/
def get_decrypt_size (char_counts : CharCountVector) : Nat :=
  char_counts.foldl (fun last pair => (last + pair.2) % 2 ^ 64) 0

/-- The state of the `std::istringstream`: the characters not yet read and the
`eofbit` and `failbit` flags. -/
structure IStream where
  rest : List Char
  eof : Bool
  fail : Bool

/-- Source: `isspace` in the classic locale. -/
def isspace (ch : Char) : Bool :=
  decide (ch.toNat = 32 ∨ (9 ≤ ch.toNat ∧ ch.toNat ≤ 13))

/-- Source: `isdigit`. -/
def isdigit (ch : Char) : Bool :=
  decide (48 ≤ ch.toNat ∧ ch.toNat ≤ 57)

/-- The sentry of a formatted input operation: a stream that is not `good()`
gets `failbit`; otherwise leading whitespace is skipped, and reaching the end of
the input sets `eofbit` and `failbit`.  The flag tells whether the operation may
extract. -/
def sentry (ss : IStream) : IStream × Bool :=
  if ss.eof || ss.fail then (⟨ss.rest, ss.eof, true⟩, false)
  else
    match ss.rest.dropWhile isspace with
    | [] => (⟨[], true, true⟩, false)
    | ch :: r => (⟨ch :: r, false, false⟩, true)

/-- The value of a sequence of decimal digits. -/
def digitsValue (digits : List Char) : Nat :=
  digits.foldl (fun acc d => acc * 10 + (d.toNat - 48)) 0

/-- Source: `ss >> count` for `size_t count = 0`: an optional sign and the
longest run of decimal digits.  Without a digit the stream fails and `count`
is `0`; digits that stand for `2 ^ 64` or more make the stream fail and `count`
the largest `size_t`; running into the end of the input sets `eofbit`.  A minus
sign negates modulo `2 ^ 64`. -/
def readCount (ss : IStream) : IStream × Nat :=
  match sentry ss with
  | (ss1, false) => (ss1, 0)
  | (ss1, true) =>
    let signed := match ss1.rest with
      | ch :: _ => decide (ch.toNat = 45 ∨ ch.toNat = 43)
      | [] => false
    let negative := match ss1.rest with
      | ch :: _ => decide (ch.toNat = 45)
      | [] => false
    let r := if signed then ss1.rest.tail else ss1.rest
    let digits := r.takeWhile isdigit
    let r1 := r.dropWhile isdigit
    if digits = [] then (⟨r1, r1.isEmpty, true⟩, 0)
    else if 2 ^ 64 ≤ digitsValue digits then (⟨r1, r1.isEmpty, true⟩, 2 ^ 64 - 1)
    else
      (⟨r1, r1.isEmpty, false⟩,
        if negative then (2 ^ 64 - digitsValue digits) % 2 ^ 64
        else digitsValue digits)

/-- Source: `ss >> character` for `char character = '\0'`: the next character
that is not whitespace; `character` keeps its value when the stream fails. -/
def readChar (ss : IStream) : IStream × Char :=
  match sentry ss with
  | (ss1, false) => (ss1, NUL)
  | (ss1, true) =>
    match ss1.rest with
    | ch :: r => (⟨r, false, false⟩, ch)
    | [] => (⟨[], true, true⟩, NUL)

/-- The `while (true)` loop of `decrypt_string`.  The loop ends when `eofbit` is
set after the two reads.  A stream with `failbit` but not `eofbit` stays so for
ever: the source loop never ends, which is `none`.  Every other round consumes
input, so a `fuel` above the length of the input is never used up. -/
def parseLoop : Nat → IStream → CharCountVector → Option CharCountVector
  | 0, _, _ => none
  | fuel + 1, ss, char_counts =>
    let (ss1, count) := readCount ss
    let (ss2, character) := readChar ss1
    if ss2.eof then some char_counts
    else if ss2.fail then none
    else parseLoop fuel ss2 (char_counts ++ [(character, count)])

/-- Source: `std::fill(first, last, value)` on the buffer of a string, the two
iterators being positions of the buffer: the positions `first, ..., last - 1`
are overwritten one after the other. -/
def fill (decrypted : List Char) (first last : Nat) (value : Char) : List Char :=
  (List.range' first (last - first)).foldl (fun buffer i => buffer.set i value) decrypted

/-- The second loop of `decrypt_string`: for every pair the positions
`it, ..., it + count - 1` of the buffer are filled with `character` and `it`
moves on by `count`.  A range that ends behind the end of the buffer has no
defined behaviour: `none`. -/
def fillLoop : List Char → Nat → CharCountVector → Option (List Char)
  | decrypted, _, [] => some decrypted
  | decrypted, it, (character, count) :: char_counts =>
    if it + count ≤ decrypted.length then
      fillLoop (fill decrypted it (it + count) character) (it + count) char_counts
    else none

/-- Source: `std::string decrypt_string(const std::string &to_decrypt)`; `none`
when the parsing loop of the source never ends or the filling loop leaves the
buffer.  `decrypted.resize(n, '\0')` on the empty string gives `n` characters
`'\0'` (the allocation is taken to succeed). -/
def decrypt_string (to_decrypt : List Char) : Option (List Char) :=
  if to_decrypt = [] then some []
  else
    (parseLoop (to_decrypt.length + 1) ⟨to_decrypt, false, false⟩ []).bind fun char_counts =>
      let decrypted := List.replicate (get_decrypt_size char_counts) NUL
      fillLoop decrypted 0 char_counts

/-- The maximal runs of `replicate n last ++ body`, written as a recursion on
`body`: the run of `last` met so far has length `n`. -/
def runsFrom (last : Char) (n : Nat) : List Char → CharCountVector
  | [] => [(last, n)]
  | ch :: body =>
    if ch = last then runsFrom last (n + 1) body else (last, n) :: runsFrom ch 1 body

/-- The maximal runs of a string, in order. -/
def runs : List Char → CharCountVector
  | [] => []
  | ch :: body => runsFrom ch 1 body

/-- The string that a list of runs stands for. -/
def expand (char_counts : CharCountVector) : List Char :=
  char_counts.flatMap fun pair => List.replicate pair.2 pair.1

/-- The run-length code of a list of runs: for every run the decimal
representation of its length followed by its character. -/
def encode (char_counts : CharCountVector) : List Char :=
  char_counts.flatMap fun pair => to_string pair.2 ++ [pair.1]

/-- A lowercase letter `'a'..'z'`. -/
def islower (ch : Char) : Prop :=
  97 ≤ ch.toNat ∧ ch.toNat ≤ 122

end StringCompr

/-! ## `shapes.hpp` -/

namespace Shapes

/-! ## `struct Vec3` -/

/-- Source: `struct Vec3 { float x, y, z; }`. -/
structure Vec3 (K : Type) where
  x : K
  y : K
  z : K
deriving DecidableEq, Repr

namespace Vec3

variable {K : Type} [LinearOrderedField K]

/-- Source: `float dot(const Vec3 &rhs) const`. -/
def dot (a rhs : Vec3 K) : K :=
  a.x * rhs.x + a.y * rhs.y + a.z * rhs.z

/-- Source: `float normSq() const`: `dot(*this)`. -/
def normSq (a : Vec3 K) : K :=
  a.dot a

/-- Source: `float norm() const`: `sqrt(normSq())`. -/
def norm (sqrt : K → K) (a : Vec3 K) : K :=
  sqrt a.normSq

/-- Source: `Vec3 operator+(const Vec3 &rhs) const`. -/
def add (a rhs : Vec3 K) : Vec3 K :=
  ⟨a.x + rhs.x, a.y + rhs.y, a.z + rhs.z⟩

/-- Source: `Vec3 operator-() const`. -/
def neg (a : Vec3 K) : Vec3 K :=
  ⟨-a.x, -a.y, -a.z⟩

/-- Source: `Vec3 operator-(const Vec3 &rhs) const`: `*this + (-rhs)`. -/
def sub (a rhs : Vec3 K) : Vec3 K :=
  a.add rhs.neg

/-- Source: `Vec3 operator+(float scalar) const`. -/
def addScalar (a : Vec3 K) (scalar : K) : Vec3 K :=
  ⟨a.x + scalar, a.y + scalar, a.z + scalar⟩

/-- Source: `Vec3 operator-(float scalar) const`: `*this + (-scalar)`. -/
def subScalar (a : Vec3 K) (scalar : K) : Vec3 K :=
  a.addScalar (-scalar)

/-- Source: `Vec3 operator*(float scalar) const`. -/
def scale (a : Vec3 K) (scalar : K) : Vec3 K :=
  ⟨a.x * scalar, a.y * scalar, a.z * scalar⟩

/-- Source: `Vec3 operator*(const Vec3 &rhs) const` (component-wise product). -/
def mul (a rhs : Vec3 K) : Vec3 K :=
  ⟨a.x * rhs.x, a.y * rhs.y, a.z * rhs.z⟩

/-- Source: `Vec3 operator/(float scalar) const`: `*this * (1.f / scalar)`. -/
def div (a : Vec3 K) (scalar : K) : Vec3 K :=
  a.scale (1 / scalar)

/-- Source: `Vec3 normalized() const`: the vector itself when its norm is exactly zero,
the vector divided by its norm otherwise. -/
def normalized (sqrt : K → K) (a : Vec3 K) : Vec3 K :=
  let len := a.norm sqrt
  if len = 0 then a else a.div len

/-- Source: `Vec3 cross(const Vec3 &rhs) const`. -/
def cross (a rhs : Vec3 K) : Vec3 K :=
  ⟨a.y * rhs.z - a.z * rhs.y,
   a.z * rhs.x - a.x * rhs.z,
   a.x * rhs.y - a.y * rhs.x⟩

/-- Source: `static Vec3 zeros()`. -/
def zeros : Vec3 K :=
  ⟨0, 0, 0⟩

/-- Source: `static Vec3 ones()`. -/
def ones : Vec3 K :=
  ⟨1, 1, 1⟩

/-- Source: `Vec3 projection_onto(const Vec3 &rhs) const`. -/
def projection_onto (a rhs : Vec3 K) : Vec3 K :=
  rhs.scale (a.dot rhs / rhs.normSq)

/-- Source: `Vec3 projection_onto_plane(const Vec3 &normal_vector) const`. -/
def projection_onto_plane (a normal_vector : Vec3 K) : Vec3 K :=
  a.sub (a.projection_onto normal_vector)

/-- Source: `bool isCoolinearWith(const Vec3 &rhs) const`. -/
def isCoolinearWith (a rhs : Vec3 K) : Bool :=
  decide ((a.cross rhs).normSq = 0)

/-- Source: `bool isPerpendicularWith(const Vec3 &rhs) const`. -/
def isPerpendicularWith (a rhs : Vec3 K) : Bool :=
  decide (a.dot rhs = 0)

/-- Source: `Vec3 resized(float new_size) const`: `normalized() * new_size`. -/
def resized (sqrt : K → K) (a : Vec3 K) (new_size : K) : Vec3 K :=
  (a.normalized sqrt).scale new_size

end Vec3

/-! ## The four shapes -/

/-- Source: `struct Sphere { Vec3 center; float radius; }`. -/
structure Sphere (K : Type) where
  center : Vec3 K
  radius : K

/-- Source: `struct Aabb { Vec3 min; Vec3 max; }`. -/
structure Aabb (K : Type) where
  min : Vec3 K
  max : Vec3 K

/-- Source: `struct Tetrahedron { std::array<Vec3, 4> points; }`. -/
structure Tetrahedron (K : Type) where
  points : Fin 4 → Vec3 K

/-- Source: `struct Capsule { std::array<Vec3, 2> points; float radius; }`. -/
structure Capsule (K : Type) where
  points : Fin 2 → Vec3 K
  radius : K

variable {K : Type} [LinearOrderedField K]

/-! ## `support<Sphere>` -/

/-- Source: `Vec3 support<Sphere>(const Vec3 &v, const Sphere &s)`. -/
def support_Sphere (sqrt : K → K) (v : Vec3 K) (s : Sphere K) : Vec3 K :=
  s.center.add (v.resized sqrt s.radius)

/-! ## `support<Aabb>` -/

/-- The comparator lambda handed to `std::sort` in `support<Aabb>`: `true` when
`lhs` is ordered before `rhs`. -/
def cornerBefore (lhs rhs : Vec3 K) : Bool :=
  if lhs.z * rhs.z < 0 then decide (lhs.z > rhs.z)
  else if lhs.y * rhs.y < 0 then decide (lhs.y > rhs.y)
  else decide (lhs.x > rhs.x)

/-- One step of the sort: `x`, which stands in front of the elements of the
sorted list in the input, is placed in front of the first element that is not
ordered before it. -/
def sortInsert {α : Type} (comp : α → α → Bool) (x : α) : List α → List α
  | [] => [x]
  | y :: ys => if comp y x then y :: sortInsert comp x ys else x :: y :: ys

/-- Source: `std::sort(first, last, comp)`, as an insertion sort that keeps
elements the comparator cannot tell apart in their input order, which is what
the insertion sort of the C++ library, used on ranges of at most 16 elements,
produces.  The standard leaves the relative order of equivalent elements open; in
exact arithmetic two corners of `support<Aabb>` that the comparator cannot tell
apart are equal vectors, so that the sorted array does not depend on the
algorithm (`std_sort_corners_unique`). -/
def std_sort {α : Type} (comp : α → α → Bool) : List α → List α
  | [] => []
  | x :: xs => sortInsert comp x (std_sort comp xs)

/-- Source: `main_diagonal` of `support<Aabb>`. -/
def Aabb.main_diagonal (s : Aabb K) : Vec3 K :=
  s.max.sub s.min

/-- Source: `mid_point` of `support<Aabb>`: `main_diagonal * 0.5 + s.min`. -/
def Aabb.mid_point (s : Aabb K) : Vec3 K :=
  (s.main_diagonal.scale (1 / 2)).add s.min

/-- The array `corners` of `support<Aabb>` as the three nested loops fill it
(`z` outermost, `x` innermost), before it is sorted. -/
def Aabb.corners (s : Aabb K) : List (Vec3 K) :=
  [0, 1].flatMap fun z => [0, 1].flatMap fun y => [0, 1].map fun x =>
    (s.min.add (s.main_diagonal.mul ⟨x, y, z⟩)).sub s.mid_point

/-- One of the three `if`/`else` halvings of the iterator range `[beg, end)`:
`end = beg + (end - beg) / 2` when the component is positive,
`beg = beg + (end - beg) / 2` otherwise. -/
def bisect (positive : Bool) (r : Nat × Nat) : Nat × Nat :=
  if positive then (r.1, r.1 + (r.2 - r.1) / 2) else (r.1 + (r.2 - r.1) / 2, r.2)

/-- Source: `Vec3 support<Aabb>(const Vec3 &v, const Aabb &s)`, in exact
arithmetic (`Fp.support_Aabb` is the same function with rounding).  The
iterators `beg` and `end` are positions in the sorted array; `*beg` is always in
range. -/
def support_Aabb (v : Vec3 K) (s : Aabb K) : Vec3 K :=
  let corners := std_sort cornerBefore s.corners
  let r0 : Nat × Nat := (0, corners.length)
  let r1 := bisect (decide (v.z > 0)) r0
  let r2 := bisect (decide (v.y > 0)) r1
  let r3 := bisect (decide (v.x > 0)) r2
  (corners.getD r3.1 Vec3.zeros).add s.mid_point

/-! ## `support<Tetrahedron>` -/

/-- The scan of `std::min_element` / `std::max_element` over the rest of the
range: `best` is the position kept so far, `bestVal` its element, `i` the
position of the head of the list; `better x bestVal` makes `x` the new choice. -/
def scanBest {α : Type} (better : α → α → Bool) : Nat → α → Nat → List α → Nat
  | best, _, _, [] => best
  | best, bestVal, i, x :: xs =>
    if better x bestVal then scanBest better i x (i + 1) xs
    else scanBest better best bestVal (i + 1) xs

/-- Source: `std::min_element(first, last, comp) - first`: the position of the first
element that no other element is `comp`-smaller than. -/
def min_element {α : Type} (comp : α → α → Bool) : List α → Nat
  | [] => 0
  | x :: xs => scanBest comp 0 x 1 xs

/-- Source: `std::max_element(first, last) - first`: a later element replaces the
choice only when the choice is strictly smaller. -/
def max_element (xs : List K) : Nat :=
  match xs with
  | [] => 0
  | x :: rest => scanBest (fun cur largest => decide (largest < cur)) 0 x 1 rest

/-- The index expression `n % 4` into `std::array<Vec3, 4>`. -/
def idx4 (n : Nat) : Fin 4 :=
  ⟨n % 4, Nat.mod_lt n (by decide)⟩

/-- The entry `normals[i]` computed by the first loop of
`support<Tetrahedron>`. -/
def Tetrahedron.normal (s : Tetrahedron K) (i : Nat) : Vec3 K :=
  let arm1 := (s.points (idx4 (i + 1))).sub (s.points (idx4 (i + 2)))
  let arm2 := (s.points (idx4 (i + 1))).sub (s.points (idx4 (i + 3)))
  arm1.cross arm2

/-- The array `cosines` of `support<Tetrahedron>`. -/
def Tetrahedron.cosines (sqrt : K → K) (v : Vec3 K) (s : Tetrahedron K) : List K :=
  let norm_v := v.normalized sqrt
  [0, 1, 2, 3].map fun i => norm_v.dot ((s.normal i).normalized sqrt)

/-- The conversion of a `float` to `int`: the fractional part is discarded
(truncation toward zero). -/
def toInt [FloorRing K] (x : K) : ℤ :=
  if 0 ≤ x then ⌊x⌋ else ⌈x⌉

/-- The index `i_best` of `support<Tetrahedron>`.  The comparator calls the
unqualified `abs`; the file includes only `<cmath>` and `<array>`, which leaves
the C function `int abs(int)` as the one candidate of that name in scope, so
both cosines are converted to `int` before their absolute values are compared. -/
def Tetrahedron.i_best [FloorRing K] (sqrt : K → K) (v : Vec3 K) (s : Tetrahedron K) : Nat :=
  min_element (fun lhs rhs => decide (|toInt lhs| < |toInt rhs|)) (s.cosines sqrt v)

/-- Source: `Vec3 support<Tetrahedron>(const Vec3 &v, const Tetrahedron &s)`.
`i_best` is a position in a four-element array, so `s.points[i_best]` is
`s.points (idx4 i_best)`. -/
def support_Tetrahedron [FloorRing K] (sqrt : K → K) (v : Vec3 K) (s : Tetrahedron K) :
    Vec3 K :=
  let cosines := s.cosines sqrt v
  let i_best := s.i_best sqrt v
  let normal := s.normal i_best
  if cosines.getD i_best 0 > 0 then
    s.points (idx4 i_best)
  else if normal.isCoolinearWith v then
    let diff_point := s.points (idx4 (i_best + 1))
    ((diff_point.sub (s.points (idx4 i_best))).projection_onto_plane normal).add diff_point
  else
    let dists_sq_from_plane := [0, 1, 2].map fun (_ : Nat) =>
      (((s.points (idx4 i_best)).sub (s.points (idx4 (i_best + 1)))).projection_onto normal).normSq
    let it := max_element dists_sq_from_plane
    s.points (idx4 (i_best + it))

/-! ## `support<Capsule>` -/

/-- Source: `Vec3 support<Capsule>(const Vec3 &v, const Capsule &s)`, in exact
arithmetic (`Fp.support_Capsule` is the same function with rounding). -/
def support_Capsule (sqrt : K → K) (v : Vec3 K) (s : Capsule K) : Vec3 K :=
  let altitude := (s.points 0).sub (s.points 1)
  let mid_point := if v.dot altitude < 0 then s.points 1 else s.points 0
  if v.isCoolinearWith altitude then
    mid_point
  else
    let radius := (v.projection_onto_plane altitude).resized sqrt s.radius
    mid_point.add radius

/-! ## The binary32 reading of `float`

The definitions above read the arithmetic of `float` as exact.  The definitions
of this section are the same functions with an operator `rnd` applied to the
result of every addition, subtraction, multiplication and division, in the order
in which the expressions of the source are evaluated; negation is exact and
`sqrt` stands for the square root already rounded.  With the identity for `rnd`
they are the exact definitions (`support_Aabb_exact_reading`,
`support_Capsule_exact_reading`); with `round32` they are the arithmetic of a
program that evaluates every `float` operation in binary32, without fused
multiply-add, as long as every result stays below `2 ^ 128` in absolute value. -/

/-- The integer nearest to `x`, the even one of the two when `x` lies half-way
between two integers. -/
def roundEven [FloorRing K] (x : K) : ℤ :=
  if x - ⌊x⌋ < 1 / 2 then ⌊x⌋
  else if 1 / 2 < x - ⌊x⌋ then ⌊x⌋ + 1
  else if ⌊x⌋ % 2 = 0 then ⌊x⌋
  else ⌊x⌋ + 1

/-- The exponent of the unit in the last place of the binary32 format at `x`: the
format keeps 24 significant bits, and its smallest exponent is `-126`. -/
def ulpExponent [FloorRing K] (x : K) : ℤ :=
  max (Int.log 2 |x|) (-126) - 23

/-- The rounding of the binary32 format, to the nearest representable number and
to the one with an even significand in case of a tie, for `|x| < 2 ^ 128`
(greater values, which the format turns into an infinity, are not modelled). -/
def round32 [FloorRing K] (x : K) : K :=
  (roundEven (x / 2 ^ ulpExponent x) : K) * 2 ^ ulpExponent x

namespace Fp

variable (rnd : K → K)

/-- Source: `float dot(const Vec3 &rhs) const`. -/
def dot (a rhs : Vec3 K) : K :=
  rnd (rnd (rnd (a.x * rhs.x) + rnd (a.y * rhs.y)) + rnd (a.z * rhs.z))

/-- Source: `float normSq() const`: `dot(*this)`. -/
def normSq (a : Vec3 K) : K :=
  dot rnd a a

/-- Source: `float norm() const`: `sqrt(normSq())`. -/
def norm (sqrt : K → K) (a : Vec3 K) : K :=
  sqrt (normSq rnd a)

/-- Source: `Vec3 operator+(const Vec3 &rhs) const`. -/
def add (a rhs : Vec3 K) : Vec3 K :=
  ⟨rnd (a.x + rhs.x), rnd (a.y + rhs.y), rnd (a.z + rhs.z)⟩

/-- Source: `Vec3 operator-(const Vec3 &rhs) const`: `*this + (-rhs)`. -/
def sub (a rhs : Vec3 K) : Vec3 K :=
  add rnd a rhs.neg

/-- Source: `Vec3 operator*(float scalar) const`. -/
def scale (a : Vec3 K) (scalar : K) : Vec3 K :=
  ⟨rnd (a.x * scalar), rnd (a.y * scalar), rnd (a.z * scalar)⟩

/-- Source: `Vec3 operator*(const Vec3 &rhs) const` (component-wise product). -/
def mul (a rhs : Vec3 K) : Vec3 K :=
  ⟨rnd (a.x * rhs.x), rnd (a.y * rhs.y), rnd (a.z * rhs.z)⟩

/-- Source: `Vec3 operator/(float scalar) const`: `*this * (1.f / scalar)`. -/
def div (a : Vec3 K) (scalar : K) : Vec3 K :=
  scale rnd a (rnd (1 / scalar))

/-- Source: `Vec3 normalized() const`. -/
def normalized (sqrt : K → K) (a : Vec3 K) : Vec3 K :=
  let len := norm rnd sqrt a
  if len = 0 then a else div rnd a len

/-- Source: `Vec3 cross(const Vec3 &rhs) const`. -/
def cross (a rhs : Vec3 K) : Vec3 K :=
  ⟨rnd (rnd (a.y * rhs.z) - rnd (a.z * rhs.y)),
   rnd (rnd (a.z * rhs.x) - rnd (a.x * rhs.z)),
   rnd (rnd (a.x * rhs.y) - rnd (a.y * rhs.x))⟩

/-- Source: `Vec3 projection_onto(const Vec3 &rhs) const`. -/
def projection_onto (a rhs : Vec3 K) : Vec3 K :=
  scale rnd rhs (rnd (dot rnd a rhs / normSq rnd rhs))

/-- Source: `Vec3 projection_onto_plane(const Vec3 &normal_vector) const`. -/
def projection_onto_plane (a normal_vector : Vec3 K) : Vec3 K :=
  sub rnd a (projection_onto rnd a normal_vector)

/-- Source: `bool isCoolinearWith(const Vec3 &rhs) const`. -/
def isCoolinearWith (a rhs : Vec3 K) : Bool :=
  decide (normSq rnd (cross rnd a rhs) = 0)

/-- Source: `Vec3 resized(float new_size) const`: `normalized() * new_size`. -/
def resized (sqrt : K → K) (a : Vec3 K) (new_size : K) : Vec3 K :=
  scale rnd (normalized rnd sqrt a) new_size

/-- The comparator lambda handed to `std::sort` in `support<Aabb>`. -/
def cornerBefore (lhs rhs : Vec3 K) : Bool :=
  if rnd (lhs.z * rhs.z) < 0 then decide (lhs.z > rhs.z)
  else if rnd (lhs.y * rhs.y) < 0 then decide (lhs.y > rhs.y)
  else decide (lhs.x > rhs.x)

/-- Source: `main_diagonal` of `support<Aabb>`. -/
def main_diagonal (s : Aabb K) : Vec3 K :=
  sub rnd s.max s.min

/-- Source: `mid_point` of `support<Aabb>`: `main_diagonal * 0.5 + s.min`. -/
def mid_point (s : Aabb K) : Vec3 K :=
  add rnd (scale rnd (main_diagonal rnd s) (1 / 2)) s.min

/-- The array `corners` of `support<Aabb>` as the three nested loops fill it,
before it is sorted. -/
def corners (s : Aabb K) : List (Vec3 K) :=
  [0, 1].flatMap fun z => [0, 1].flatMap fun y => [0, 1].map fun x =>
    sub rnd (add rnd s.min (mul rnd (main_diagonal rnd s) ⟨x, y, z⟩)) (mid_point rnd s)

/-- Source: `Vec3 support<Aabb>(const Vec3 &v, const Aabb &s)`. -/
def support_Aabb (v : Vec3 K) (s : Aabb K) : Vec3 K :=
  let corners := std_sort (cornerBefore rnd) (corners rnd s)
  let r0 : Nat × Nat := (0, corners.length)
  let r1 := bisect (decide (v.z > 0)) r0
  let r2 := bisect (decide (v.y > 0)) r1
  let r3 := bisect (decide (v.x > 0)) r2
  add rnd (corners.getD r3.1 Vec3.zeros) (mid_point rnd s)

/-- Source: `Vec3 support<Capsule>(const Vec3 &v, const Capsule &s)`. -/
def support_Capsule (sqrt : K → K) (v : Vec3 K) (s : Capsule K) : Vec3 K :=
  let altitude := sub rnd (s.points 0) (s.points 1)
  let mid_point := if dot rnd v altitude < 0 then s.points 1 else s.points 0
  if isCoolinearWith rnd v altitude then
    mid_point
  else
    let radius := resized rnd sqrt (projection_onto_plane rnd v altitude) s.radius
    add rnd mid_point radius

end Fp

/-! ## Definitions used to state the properties -/

/-- The eight corner offsets that `support<Aabb>` generates, in loop order, for
half extents `hx`, `hy`, `hz`. -/
def halfCorners (hx hy hz : K) : List (Vec3 K) :=
  [⟨-hx, -hy, -hz⟩, ⟨hx, -hy, -hz⟩, ⟨-hx, hy, -hz⟩, ⟨hx, hy, -hz⟩,
   ⟨-hx, -hy, hz⟩, ⟨hx, -hy, hz⟩, ⟨-hx, hy, hz⟩, ⟨hx, hy, hz⟩]

/-- A corner of the box: every coordinate is the `min` or the `max` coordinate
of its axis. -/
def Aabb.IsCorner (s : Aabb K) (c : Vec3 K) : Prop :=
  (c.x = s.min.x ∨ c.x = s.max.x) ∧ (c.y = s.min.y ∨ c.y = s.max.y) ∧
    (c.z = s.min.z ∨ c.z = s.max.z)

/-- The point of the medial segment of the capsule at parameter `t`:
`points[0] + (points[1] - points[0]) * t`. -/
def Capsule.segmentPoint (s : Capsule K) (t : K) : Vec3 K :=
  (s.points 0).add (((s.points 1).sub (s.points 0)).scale t)

/-- The capsule as the Minkowski sum of its medial segment and the ball of its
radius: `q` is within distance `radius` of some point of the segment. -/
def Capsule.Contains (sqrt : K → K) (s : Capsule K) (q : Vec3 K) : Prop :=
  ∃ t : K, 0 ≤ t ∧ t ≤ 1 ∧ (q.sub (s.segmentPoint t)).norm sqrt ≤ s.radius

/-- The regular tetrahedron with vertices `(1,1,1)`, `(1,-1,-1)`, `(-1,1,-1)`,
`(-1,-1,1)`; its centroid is the origin. -/
def regularTet : Tetrahedron K :=
  ⟨![⟨1, 1, 1⟩, ⟨1, -1, -1⟩, ⟨-1, 1, -1⟩, ⟨-1, -1, 1⟩]⟩

/-- The capsule with endpoints `(0,0,0)` and `(0,0,4)` and radius `1`. -/
def capsule04 : Capsule K :=
  ⟨![⟨0, 0, 0⟩, ⟨0, 0, 4⟩], 1⟩

/-- Every coordinate of `a` is plus or minus the half extent of its axis. -/
def HasExtents (hx hy hz : K) (a : Vec3 K) : Prop :=
  a.x * a.x = hx * hx ∧ a.y * a.y = hy * hy ∧ a.z * a.z = hz * hz

/-- Six times the signed volume of the tetrahedron: the triple product of the
three edges out of `points[0]`. -/
def Tetrahedron.triple (s : Tetrahedron K) : K :=
  ((s.points 1).sub (s.points 0)).dot
    (((s.points 2).sub (s.points 0)).cross ((s.points 3).sub (s.points 0)))

/-- A non-degenerate tetrahedron: the four vertices are affinely independent,
that is, the three edges out of `points[0]` have a non-zero triple product. -/
def Tetrahedron.IsNondegenerate (s : Tetrahedron K) : Prop :=
  s.triple ≠ 0

/-! ## Vector algebra used by the proofs -/

namespace Vec3

theorem normSq_nonneg (a : Vec3 K) : 0 ≤ a.normSq := by
  unfold normSq dot
  nlinarith [mul_self_nonneg a.x, mul_self_nonneg a.y, mul_self_nonneg a.z]

theorem normSq_eq_zero_iff (a : Vec3 K) : a.normSq = 0 ↔ a = zeros := by
  constructor
  · intro h
    unfold normSq dot at h
    have hx : a.x = 0 := by
      nlinarith [mul_self_nonneg a.x, mul_self_nonneg a.y, mul_self_nonneg a.z]
    have hy : a.y = 0 := by
      nlinarith [mul_self_nonneg a.x, mul_self_nonneg a.y, mul_self_nonneg a.z]
    have hz : a.z = 0 := by
      nlinarith [mul_self_nonneg a.x, mul_self_nonneg a.y, mul_self_nonneg a.z]
    cases a
    simp_all [zeros]
  · rintro rfl
    simp [normSq, dot, zeros]

/-- Lagrange's identity. -/
theorem normSq_cross (a b : Vec3 K) :
    (a.cross b).normSq = a.normSq * b.normSq - a.dot b * a.dot b := by
  simp only [normSq, dot, cross]
  ring

/-- Cauchy-Schwarz, squared form. -/
theorem dot_mul_self_le (a b : Vec3 K) : a.dot b * a.dot b ≤ a.normSq * b.normSq := by
  have h := normSq_nonneg (a.cross b)
  rw [normSq_cross] at h
  linarith

theorem norm_pos_of_ne {v : Vec3 ℝ} (hv : v ≠ zeros) : 0 < v.norm Real.sqrt := by
  unfold norm
  apply Real.sqrt_pos.mpr
  rcases lt_or_eq_of_le (normSq_nonneg v) with h | h
  · exact h
  · exact absurd ((normSq_eq_zero_iff v).mp h.symm) hv

theorem norm_mul_self (v : Vec3 ℝ) : v.norm Real.sqrt * v.norm Real.sqrt = v.normSq :=
  Real.mul_self_sqrt (normSq_nonneg v)

theorem normalized_of_ne {v : Vec3 ℝ} (hv : v ≠ zeros) :
    v.normalized Real.sqrt = v.scale (1 / v.norm Real.sqrt) := by
  have h := norm_pos_of_ne hv
  simp [normalized, div, h.ne']

theorem normalized_zeros : (zeros : Vec3 ℝ).normalized Real.sqrt = zeros := by
  simp [normalized, norm, normSq, dot, zeros]

theorem add_sub_same (c w : Vec3 K) : (c.add w).sub c = w := by
  cases c; cases w
  simp [add, sub, neg]

theorem le_of_mul_self_le {x y : K} (hy : 0 ≤ y) (h : x * x ≤ y * y) : x ≤ y := by
  by_contra hlt
  push_neg at hlt
  nlinarith

theorem dot_le_norm_mul_norm (a b : Vec3 ℝ) :
    a.dot b ≤ a.norm Real.sqrt * b.norm Real.sqrt := by
  have h := dot_mul_self_le a b
  have ha : 0 ≤ a.norm Real.sqrt := Real.sqrt_nonneg _
  have hb : 0 ≤ b.norm Real.sqrt := Real.sqrt_nonneg _
  apply le_of_mul_self_le (mul_nonneg ha hb)
  calc a.dot b * a.dot b ≤ a.normSq * b.normSq := h
    _ = (a.norm Real.sqrt * a.norm Real.sqrt) * (b.norm Real.sqrt * b.norm Real.sqrt) := by
        rw [norm_mul_self, norm_mul_self]
    _ = _ := by ring

theorem normSq_scale (a : Vec3 K) (k : K) : (a.scale k).normSq = a.normSq * (k * k) := by
  simp only [normSq, dot, scale]; ring

theorem dot_scale (a b : Vec3 K) (k : K) : a.dot (b.scale k) = a.dot b * k := by
  simp only [dot, scale]; ring

theorem dot_add (a b c : Vec3 K) : a.dot (b.add c) = a.dot b + a.dot c := by
  simp only [dot, add]; ring

theorem dot_sub (a b c : Vec3 K) : a.dot (b.sub c) = a.dot b - a.dot c := by
  simp only [dot, sub, add, neg]; ring

theorem dot_comm (a b : Vec3 K) : a.dot b = b.dot a := by
  simp only [dot]; ring

theorem dot_zeros (a : Vec3 K) : a.dot zeros = 0 := by
  simp [dot, zeros]

theorem add_zeros (a : Vec3 K) : a.add zeros = a := by
  cases a; simp [add, zeros]

/-- A vector with a non-zero cross product against `n` forces `n` to be non-zero. -/
theorem normSq_ne_zero_of_cross {v n : Vec3 K} (h : (v.cross n).normSq ≠ 0) : n.normSq ≠ 0 := by
  intro hn
  apply h
  rw [(normSq_eq_zero_iff n).mp hn]
  simp [cross, zeros, normSq, dot]

/-- The rejection of `v` from `n` is perpendicular to `n`. -/
theorem projection_onto_plane_dot {v n : Vec3 K} (hn : n.normSq ≠ 0) :
    (v.projection_onto_plane n).dot n = 0 := by
  have h : (v.projection_onto_plane n).dot n = v.dot n - v.dot n / n.normSq * n.normSq := by
    simp only [projection_onto_plane, projection_onto, dot, sub, add, neg, scale, normSq]
    ring
  rw [h]
  field_simp

/-- Squared length of the rejection, cleared of the denominator. -/
theorem normSq_projection_onto_plane {v n : Vec3 K} (hn : n.normSq ≠ 0) :
    (v.projection_onto_plane n).normSq * n.normSq = (v.cross n).normSq := by
  have h : (v.projection_onto_plane n).normSq
      = v.normSq - 2 * (v.dot n / n.normSq) * v.dot n
        + (v.dot n / n.normSq) * (v.dot n / n.normSq) * n.normSq := by
    simp only [projection_onto_plane, projection_onto, dot, sub, add, neg, scale, normSq]
    ring
  rw [h, normSq_cross]
  field_simp
  ring

/-- The direction and its rejection have the rejection's squared length as dot product. -/
theorem dot_projection_onto_plane {v n : Vec3 K} (hn : n.normSq ≠ 0) :
    v.dot (v.projection_onto_plane n) = (v.projection_onto_plane n).normSq := by
  have h1 := projection_onto_plane_dot (v := v) hn
  have h2 : v.dot (v.projection_onto_plane n)
      = (v.projection_onto_plane n).normSq
        + (v.dot n / n.normSq) * (v.projection_onto_plane n).dot n := by
    simp only [projection_onto_plane, projection_onto, dot, sub, add, neg, scale, normSq]
    ring
  rw [h2, h1]; ring

theorem zero_le_norm (v : Vec3 ℝ) : 0 ≤ v.norm Real.sqrt := Real.sqrt_nonneg _

theorem norm_zeros : (zeros : Vec3 ℝ).norm Real.sqrt = 0 := by
  simp [Vec3.norm, normSq, dot, zeros]

theorem ne_zeros_of_normSq {v : Vec3 K} (h : v.normSq ≠ 0) : v ≠ zeros :=
  fun h0 => h ((normSq_eq_zero_iff v).mpr h0)

/-- The `resized` of a non-zero vector has exactly the requested length. -/
theorem norm_resized {w : Vec3 ℝ} (hw : w ≠ zeros) {r : ℝ} (hr : 0 ≤ r) :
    (w.resized Real.sqrt r).norm Real.sqrt = r := by
  have hL := norm_pos_of_ne hw
  have hLL := norm_mul_self w
  have h1 : (w.resized Real.sqrt r).normSq = r * r := by
    unfold resized
    rw [normalized_of_ne hw, normSq_scale, normSq_scale, ← hLL]
    field_simp
  show Real.sqrt _ = _
  rw [h1, Real.sqrt_mul_self hr]

/-- The direction's dot product with the resized vector. -/
theorem dot_resized (v : Vec3 ℝ) {w : Vec3 ℝ} (hw : w ≠ zeros) (r : ℝ) :
    v.dot (w.resized Real.sqrt r) = v.dot w / w.norm Real.sqrt * r := by
  unfold resized
  rw [normalized_of_ne hw, dot_scale, dot_scale]
  ring

theorem scale_zeros (k : K) : (zeros : Vec3 K).scale k = zeros := by
  simp [scale, zeros]

theorem dot_scale_left (a b : Vec3 K) (k : K) : (a.scale k).dot b = a.dot b * k := by
  simp only [dot, scale]; ring

theorem cross_scale_left (a b : Vec3 K) (k : K) : (a.scale k).cross b = (a.cross b).scale k := by
  simp only [cross, scale, Vec3.mk.injEq]
  refine ⟨?_, ?_, ?_⟩ <;> ring

theorem cross_scale_right (a b : Vec3 K) (k : K) : a.cross (b.scale k) = (a.cross b).scale k := by
  simp only [cross, scale, Vec3.mk.injEq]
  refine ⟨?_, ?_, ?_⟩ <;> ring

theorem normSq_scale_eq_zero_iff (a : Vec3 K) {k : K} (hk : 0 < k) :
    (a.scale k).normSq = 0 ↔ a.normSq = 0 := by
  rw [normSq_scale]
  have : k * k ≠ 0 := (mul_pos hk hk).ne'
  simp [this]

theorem projection_onto_plane_scale (v n : Vec3 K) (k : K) :
    (v.scale k).projection_onto_plane n = (v.projection_onto_plane n).scale k := by
  simp only [projection_onto_plane, projection_onto, dot, sub, add, neg, scale, Vec3.mk.injEq]
  refine ⟨?_, ?_, ?_⟩ <;> ring

/-- Normalising does not see a positive scaling of its argument. -/
theorem normalized_scale (v : Vec3 ℝ) {k : ℝ} (hk : 0 < k) :
    (v.scale k).normalized Real.sqrt = v.normalized Real.sqrt := by
  by_cases hv : v = zeros
  · rw [hv, scale_zeros]
  · have hvk : v.scale k ≠ zeros := by
      intro h
      apply hv
      apply (normSq_eq_zero_iff v).mp
      exact (normSq_scale_eq_zero_iff v hk).mp ((normSq_eq_zero_iff _).mpr h)
    have hL := norm_pos_of_ne hv
    have hnorm : (v.scale k).norm Real.sqrt = v.norm Real.sqrt * k := by
      show Real.sqrt _ = Real.sqrt _ * k
      rw [normSq_scale, Real.sqrt_mul (normSq_nonneg v), Real.sqrt_mul_self hk.le]
    rw [normalized_of_ne hvk, normalized_of_ne hv, hnorm]
    cases v
    simp only [scale, Vec3.mk.injEq]
    refine ⟨?_, ?_, ?_⟩ <;> field_simp <;> ring

theorem resized_scale (v : Vec3 ℝ) {k : ℝ} (hk : 0 < k) (r : ℝ) :
    (v.scale k).resized Real.sqrt r = v.resized Real.sqrt r := by
  unfold resized
  rw [normalized_scale v hk]

end Vec3

open Vec3

/-! ## Lemmas on `support<Aabb>` -/

theorem Aabb.corners_eq (s : Aabb K) :
    s.corners = halfCorners ((s.max.x - s.min.x) / 2) ((s.max.y - s.min.y) / 2)
      ((s.max.z - s.min.z) / 2) := by
  simp only [Aabb.corners, halfCorners, Aabb.mid_point, Aabb.main_diagonal, List.flatMap_cons,
    List.flatMap_nil, List.map_cons, List.map_nil, List.append_nil, List.cons_append,
    List.nil_append, List.singleton_append, add, sub, neg, scale, mul, List.cons.injEq,
    Vec3.mk.injEq, and_true]
  refine ⟨⟨?_, ?_, ?_⟩, ⟨?_, ?_, ?_⟩, ⟨?_, ?_, ?_⟩, ⟨?_, ?_, ?_⟩, ⟨?_, ?_, ?_⟩, ⟨?_, ?_, ?_⟩,
    ⟨?_, ?_, ?_⟩, ⟨?_, ?_, ?_⟩⟩ <;> ring

theorem sort_halfCorners {hx hy hz : K} (px : 0 < hx) (py : 0 < hy) (pz : 0 < hz) :
    std_sort cornerBefore (halfCorners hx hy hz) =
      [⟨hx, hy, hz⟩, ⟨-hx, hy, hz⟩, ⟨hx, -hy, hz⟩, ⟨-hx, -hy, hz⟩,
       ⟨hx, hy, -hz⟩, ⟨-hx, hy, -hz⟩, ⟨hx, -hy, -hz⟩, ⟨-hx, -hy, -hz⟩] := by
  have ax : ¬ (hx * hx < 0) := not_lt.mpr (mul_self_nonneg hx)
  have ay : ¬ (hy * hy < 0) := not_lt.mpr (mul_self_nonneg hy)
  have az : ¬ (hz * hz < 0) := not_lt.mpr (mul_self_nonneg hz)
  have bx : 0 < hx * hx := mul_pos px px
  have by_ : 0 < hy * hy := mul_pos py py
  have bz : 0 < hz * hz := mul_pos pz pz
  have cx : ¬ (hx < -hx) := by intro h; linarith
  have cy : ¬ (hy < -hy) := by intro h; linarith
  have cz : ¬ (hz < -hz) := by intro h; linarith
  have dx : -hx < hx := by linarith
  have dy : -hy < hy := by linarith
  have dz : -hz < hz := by linarith
  simp [halfCorners, std_sort, sortInsert, cornerBefore, ax, ay, az, bx, by_, bz, cx, cy, cz,
    dx, dy, dz, px, py, pz]

theorem mem_sortInsert {α : Type} (comp : α → α → Bool) (x a : α) (l : List α) :
    a ∈ sortInsert comp x l ↔ a = x ∨ a ∈ l := by
  induction l with
  | nil => simp [sortInsert]
  | cons y ys ih =>
    unfold sortInsert
    split_ifs
    · simp only [List.mem_cons, ih]
      tauto
    · simp

theorem mem_std_sort {α : Type} (comp : α → α → Bool) (a : α) (l : List α) :
    a ∈ std_sort comp l ↔ a ∈ l := by
  induction l with
  | nil => simp [std_sort]
  | cons y ys ih => simp [std_sort, mem_sortInsert, ih]

theorem length_sortInsert {α : Type} (comp : α → α → Bool) (x : α) (l : List α) :
    (sortInsert comp x l).length = l.length + 1 := by
  induction l with
  | nil => simp [sortInsert]
  | cons y ys ih =>
    unfold sortInsert
    split_ifs
    · simp [ih]
    · simp

theorem length_std_sort {α : Type} (comp : α → α → Bool) (l : List α) :
    (std_sort comp l).length = l.length := by
  induction l with
  | nil => simp [std_sort]
  | cons y ys ih => simp [std_sort, length_sortInsert, ih]

theorem Aabb.length_corners (s : Aabb K) : s.corners.length = 8 := by
  rw [Aabb.corners_eq]; rfl

/-- The three halvings of `[0, 8)` end on a position inside the array. -/
theorem bisect_lt (a b c : Bool) : (bisect a (bisect b (bisect c (0, 8)))).1 < 8 := by
  cases a <;> cases b <;> cases c <;> decide

theorem getD_mem {α : Type} (l : List α) (i : Nat) (d : α) (h : i < l.length) :
    l.getD i d ∈ l := by
  rw [List.getD_eq_getElem l d h]
  exact List.getElem_mem h

/-- Membership in the unsorted corner array. -/
theorem Aabb.mem_corners (s : Aabb K) (c : Vec3 K) (h : c ∈ s.corners) :
    s.IsCorner (c.add s.mid_point) := by
  simp only [Aabb.corners, List.flatMap_cons, List.flatMap_nil, List.map_cons, List.map_nil,
    List.append_nil, List.cons_append, List.nil_append, List.mem_cons, List.mem_singleton,
    List.not_mem_nil, or_false] at h
  rcases h with h | h | h | h | h | h | h | h <;> subst h <;>
    refine ⟨?_, ?_, ?_⟩ <;>
    first
      | (left; simp only [Aabb.mid_point, Aabb.main_diagonal, add, sub, neg, scale, mul]; ring1)
      | (right; simp only [Aabb.mid_point, Aabb.main_diagonal, add, sub, neg, scale, mul]; ring1)

/-- For every box, whatever its extents, `support<Aabb>` returns a point whose
coordinates are `min` or `max` coordinates of the box. -/
theorem support_Aabb_isCorner (v : Vec3 K) (s : Aabb K) : s.IsCorner (support_Aabb v s) := by
  have hlen : (std_sort cornerBefore s.corners).length = 8 := by
    rw [length_std_sort, Aabb.length_corners]
  unfold support_Aabb
  apply Aabb.mem_corners
  apply (mem_std_sort cornerBefore _ _).mp
  apply getD_mem
  rw [hlen]
  exact bisect_lt _ _ _

theorem perm_sortInsert {α : Type} (comp : α → α → Bool) (x : α) (l : List α) :
    (sortInsert comp x l).Perm (x :: l) := by
  induction l with
  | nil => simp [sortInsert]
  | cons y ys ih =>
    unfold sortInsert
    split_ifs
    · exact (List.Perm.cons y ih).trans (List.Perm.swap x y ys)
    · exact List.Perm.refl _

theorem perm_std_sort {α : Type} (comp : α → α → Bool) (l : List α) :
    (std_sort comp l).Perm l := by
  induction l with
  | nil => simp [std_sort]
  | cons y ys ih => exact (perm_sortInsert comp y _).trans (List.Perm.cons y ih)

/-- Two arrays with the same elements, both in an order that is antisymmetric on
these elements, are the same array. -/
theorem eq_of_perm_of_pairwise {α : Type} {r : α → α → Prop} :
    ∀ (l₁ l₂ : List α), (∀ a ∈ l₁, ∀ b ∈ l₁, r a b → r b a → a = b) →
      l₁.Perm l₂ → l₁.Pairwise r → l₂.Pairwise r → l₁ = l₂
  | [], l₂, _, hp, _, _ => (List.Perm.nil_eq hp)
  | a :: t, [], _, hp, _, _ => absurd hp.symm.nil_eq (by simp)
  | a :: t, b :: u, hanti, hp, h1, h2 => by
    have ha : a ∈ b :: u := hp.subset (List.mem_cons_self _ _)
    have hb : b ∈ a :: t := hp.symm.subset (List.mem_cons_self _ _)
    have hab : a = b := by
      rcases List.mem_cons.mp ha with h | h
      · exact h
      · rcases List.mem_cons.mp hb with h' | h'
        · exact h'.symm
        · exact hanti a (List.mem_cons_self _ _) b hb
            (List.rel_of_pairwise_cons h1 h') (List.rel_of_pairwise_cons h2 h)
    subst hab
    have ht := eq_of_perm_of_pairwise t u
      (fun x hx y hy => hanti x (List.mem_cons_of_mem _ hx) y (List.mem_cons_of_mem _ hy))
      ((List.perm_cons a).mp hp) (List.Pairwise.of_cons h1) (List.Pairwise.of_cons h2)
    rw [ht]

/-- Insertion sort yields an array in which no element is ordered before an
earlier one, when the comparator is asymmetric on the elements and "not ordered
before" is transitive on them. -/
theorem pairwise_std_sort {α : Type} (comp : α → α → Bool) (S : α → Prop)
    (asym : ∀ a b, S a → S b → comp a b = true → comp b a = false)
    (ntrans : ∀ a b c, S a → S b → S c → comp a b = false → comp b c = false →
      comp a c = false)
    (l : List α) (hS : ∀ a ∈ l, S a) :
    (std_sort comp l).Pairwise (fun a b => comp b a = false) := by
  have hins : ∀ (x : α) (l : List α), S x → (∀ a ∈ l, S a) →
      l.Pairwise (fun a b => comp b a = false) →
      (sortInsert comp x l).Pairwise (fun a b => comp b a = false) := by
    intro x l hx
    induction l with
    | nil => intro _ _; simp [sortInsert]
    | cons y ys ih =>
      intro hl hp
      have hy : S y := hl y (List.mem_cons_self _ _)
      have hys : ∀ a ∈ ys, S a := fun a ha => hl a (List.mem_cons_of_mem _ ha)
      unfold sortInsert
      split_ifs with hc
      · refine List.Pairwise.cons ?_ (ih hys (List.Pairwise.of_cons hp))
        intro z hz
        rcases (mem_sortInsert comp x z ys).mp hz with rfl | hz1
        · exact asym _ _ hy hx hc
        · exact List.rel_of_pairwise_cons hp hz1
      · have hc1 : comp y x = false := by simpa using hc
        refine List.Pairwise.cons ?_ hp
        intro z hz
        rcases List.mem_cons.mp hz with rfl | hz1
        · exact hc1
        · exact ntrans z y x (hys z hz1) hy hx (List.rel_of_pairwise_cons hp hz1) hc1
  induction l with
  | nil => simp [std_sort]
  | cons y ys ih =>
    have hys : ∀ a ∈ ys, S a := fun a ha => hS a (List.mem_cons_of_mem _ ha)
    exact hins y _ (hS y (List.mem_cons_self _ _))
      (fun a ha => hys a ((mem_std_sort comp a ys).mp ha)) (ih hys)

theorem mul_neg_iff_ne {p q : K} (h : p * p = q * q) : p * q < 0 ↔ p ≠ q := by
  constructor
  · rintro hlt rfl
    exact absurd hlt (not_lt.mpr (mul_self_nonneg p))
  · intro hne
    have hsum : p + q = 0 := by
      have h0 : (p - q) * (p + q) = 0 := by ring_nf; linarith
      rcases mul_eq_zero.mp h0 with h1 | h1
      · exact absurd (sub_eq_zero.mp h1) hne
      · exact h1
    have hq : q = -p := by linarith
    have hp : p ≠ 0 := by
      rintro rfl
      exact hne (by linarith)
    have : 0 < p * p := mul_self_pos.mpr hp
    rw [hq]
    linarith

/-- On vectors with the same extents the comparator of `support<Aabb>` is the
lexicographic order on `(z, y, x)`, greater first. -/
theorem cornerBefore_iff {hx hy hz : K} {a b : Vec3 K} (ha : HasExtents hx hy hz a)
    (hb : HasExtents hx hy hz b) :
    cornerBefore a b = true ↔
      (b.z < a.z ∨ (a.z = b.z ∧ (b.y < a.y ∨ (a.y = b.y ∧ b.x < a.x)))) := by
  obtain ⟨ax, ay, az⟩ := ha
  obtain ⟨bx, by_, bz⟩ := hb
  have hz' := mul_neg_iff_ne (az.trans bz.symm)
  have hy' := mul_neg_iff_ne (ay.trans by_.symm)
  unfold cornerBefore
  by_cases ez : a.z = b.z
  · have nz : ¬ (a.z * b.z < 0) := fun h => hz'.mp h ez
    by_cases ey : a.y = b.y
    · have ny : ¬ (a.y * b.y < 0) := fun h => hy'.mp h ey
      rw [if_neg nz, if_neg ny, decide_eq_true_iff]
      constructor
      · exact fun h => Or.inr ⟨ez, Or.inr ⟨ey, h⟩⟩
      · rintro (h | ⟨_, h | ⟨_, h⟩⟩)
        · exact absurd h (by rw [ez]; exact lt_irrefl _)
        · exact absurd h (by rw [ey]; exact lt_irrefl _)
        · exact h
    · have py : a.y * b.y < 0 := hy'.mpr ey
      rw [if_neg nz, if_pos py, decide_eq_true_iff]
      constructor
      · exact fun h => Or.inr ⟨ez, Or.inl h⟩
      · rintro (h | ⟨_, h | ⟨e, _⟩⟩)
        · exact absurd h (by rw [ez]; exact lt_irrefl _)
        · exact h
        · exact absurd e ey
  · have pz : a.z * b.z < 0 := hz'.mpr ez
    rw [if_pos pz, decide_eq_true_iff]
    constructor
    · exact fun h => Or.inl h
    · rintro (h | ⟨e, _⟩)
      · exact h
      · exact absurd e ez

theorem cornerBefore_asymm {hx hy hz : K} (a b : Vec3 K) (ha : HasExtents hx hy hz a)
    (hb : HasExtents hx hy hz b) (h : cornerBefore a b = true) : cornerBefore b a = false := by
  rw [cornerBefore_iff ha hb] at h
  by_contra h'
  have h'' : cornerBefore b a = true := by simpa using h'
  rw [cornerBefore_iff hb ha] at h''
  rcases h with h | ⟨e, h | ⟨e', h⟩⟩ <;> rcases h'' with g | ⟨f, g | ⟨f', g⟩⟩ <;> linarith

theorem cornerBefore_trans {hx hy hz : K} (a b c : Vec3 K) (ha : HasExtents hx hy hz a)
    (hb : HasExtents hx hy hz b) (hc : HasExtents hx hy hz c)
    (h1 : cornerBefore a b = true) (h2 : cornerBefore b c = true) :
    cornerBefore a c = true := by
  rw [cornerBefore_iff ha hb] at h1
  rw [cornerBefore_iff hb hc] at h2
  rw [cornerBefore_iff ha hc]
  rcases h1 with h | ⟨e, h | ⟨e', h⟩⟩ <;> rcases h2 with g | ⟨f, g | ⟨f', g⟩⟩
  · exact Or.inl (lt_trans g h)
  · exact Or.inl (f ▸ h)
  · exact Or.inl (f ▸ h)
  · exact Or.inl (e ▸ g)
  · exact Or.inr ⟨e.trans f, Or.inl (lt_trans g h)⟩
  · exact Or.inr ⟨e.trans f, Or.inl (f' ▸ h)⟩
  · exact Or.inl (e ▸ g)
  · exact Or.inr ⟨e.trans f, Or.inl (e' ▸ g)⟩
  · exact Or.inr ⟨e.trans f, Or.inr ⟨e'.trans f', lt_trans g h⟩⟩

/-- Two vectors with the same extents that the comparator orders neither way
are equal. -/
theorem cornerBefore_antisymm {hx hy hz : K} (a b : Vec3 K) (ha : HasExtents hx hy hz a)
    (hb : HasExtents hx hy hz b) (h1 : cornerBefore b a = false)
    (h2 : cornerBefore a b = false) : a = b := by
  have n1 : ¬ _ := fun h => Bool.noConfusion (((cornerBefore_iff hb ha).mpr h).symm.trans h1)
  have n2 : ¬ _ := fun h => Bool.noConfusion (((cornerBefore_iff ha hb).mpr h).symm.trans h2)
  push_neg at n1 n2
  have ez : a.z = b.z := le_antisymm n2.1 n1.1
  have ey : a.y = b.y := le_antisymm (n2.2 ez).1 (n1.2 ez.symm).1
  have ex : a.x = b.x := le_antisymm ((n2.2 ez).2 ey) ((n1.2 ez.symm).2 ey.symm)
  cases a; cases b
  simp_all

/-- On vectors with the same extents "not ordered before" is transitive. -/
theorem cornerBefore_ntrans {hx hy hz : K} (a b c : Vec3 K) (ha : HasExtents hx hy hz a)
    (hb : HasExtents hx hy hz b) (hc : HasExtents hx hy hz c)
    (h1 : cornerBefore a b = false) (h2 : cornerBefore b c = false) :
    cornerBefore a c = false := by
  by_contra h
  have hac : cornerBefore a c = true := by simpa using h
  by_cases hba : cornerBefore b a = true
  · have := cornerBefore_trans b a c hb ha hc hba hac
    rw [this] at h2
    exact Bool.noConfusion h2
  · have hba1 : cornerBefore b a = false := by simpa using hba
    have hab := cornerBefore_antisymm a b ha hb hba1 h1
    subst hab
    rw [hac] at h2
    exact Bool.noConfusion h2

theorem halfCorners_hasExtents (hx hy hz : K) :
    ∀ a ∈ halfCorners hx hy hz, HasExtents hx hy hz a := by
  intro a ha
  simp only [halfCorners, List.mem_cons, List.mem_singleton, List.not_mem_nil, or_false] at ha
  rcases ha with h | h | h | h | h | h | h | h <;> subst h <;>
    simp [HasExtents]

/-- Whatever the extents of the box, the array that `std_sort` produces from the
corners is the only arrangement of the corners in which no element is ordered
before an earlier one: every outcome `std::sort` may have coincides with it. -/
theorem std_sort_corners_unique (s : Aabb K) (cs : List (Vec3 K))
    (hperm : cs.Perm s.corners)
    (hsorted : cs.Pairwise (fun a b => cornerBefore b a = false)) :
    cs = std_sort cornerBefore s.corners := by
  have hext : ∀ a ∈ s.corners, HasExtents ((s.max.x - s.min.x) / 2) ((s.max.y - s.min.y) / 2)
      ((s.max.z - s.min.z) / 2) a := by
    rw [Aabb.corners_eq]
    exact halfCorners_hasExtents _ _ _
  have hstd := pairwise_std_sort cornerBefore _ cornerBefore_asymm cornerBefore_ntrans
    s.corners hext
  refine eq_of_perm_of_pairwise cs _ ?_ (hperm.trans (perm_std_sort _ _).symm) hsorted hstd
  intro a ha b hb hab hba
  exact cornerBefore_antisymm a b (hext a (hperm.subset ha)) (hext b (hperm.subset hb)) hab hba

/-! ## Lemmas on `support<Capsule>` -/

/-- Rewriting of `support<Capsule>` as the chosen endpoint plus an offset. -/
theorem support_Capsule_eq (v : Vec3 ℝ) (s : Capsule ℝ) :
    support_Capsule Real.sqrt v s =
      (if v.dot ((s.points 0).sub (s.points 1)) < 0 then s.points 1 else s.points 0).add
        (if (v.cross ((s.points 0).sub (s.points 1))).normSq = 0 then zeros
         else (v.projection_onto_plane ((s.points 0).sub (s.points 1))).resized Real.sqrt
           s.radius) := by
  unfold support_Capsule isCoolinearWith
  by_cases h : (v.cross ((s.points 0).sub (s.points 1))).normSq = 0
  · simp [h, Vec3.add_zeros]
  · simp [h]

theorem Capsule.segmentPoint_zero (s : Capsule ℝ) : s.segmentPoint 0 = s.points 0 := by
  unfold Capsule.segmentPoint
  cases s.points 0; cases s.points 1
  simp [add, sub, neg, scale]

theorem Capsule.segmentPoint_one (s : Capsule ℝ) : s.segmentPoint 1 = s.points 1 := by
  unfold Capsule.segmentPoint
  cases s.points 0; cases s.points 1
  simp [add, sub, neg, scale]

theorem Capsule.dot_segmentPoint (v : Vec3 ℝ) (s : Capsule ℝ) (t : ℝ) :
    v.dot (s.segmentPoint t)
      = v.dot (s.points 0) - t * v.dot ((s.points 0).sub (s.points 1)) := by
  simp only [Capsule.segmentPoint, dot, add, sub, neg, scale]
  ring

/-- The offset that `support<Capsule>` adds to the chosen endpoint is not longer
than the radius and does not point against the direction. -/
theorem capsule_offset (v : Vec3 ℝ) (s : Capsule ℝ) (hr : 0 ≤ s.radius) :
    ((if (v.cross ((s.points 0).sub (s.points 1))).normSq = 0 then (zeros : Vec3 ℝ)
      else (v.projection_onto_plane ((s.points 0).sub (s.points 1))).resized Real.sqrt
        s.radius).norm Real.sqrt ≤ s.radius) ∧
    0 ≤ v.dot (if (v.cross ((s.points 0).sub (s.points 1))).normSq = 0 then (zeros : Vec3 ℝ)
      else (v.projection_onto_plane ((s.points 0).sub (s.points 1))).resized Real.sqrt
        s.radius) := by
  by_cases h : (v.cross ((s.points 0).sub (s.points 1))).normSq = 0
  · simp only [h, if_true]
    exact ⟨by rw [norm_zeros]; exact hr, by rw [dot_zeros]⟩
  · simp only [h, if_false]
    have hn := normSq_ne_zero_of_cross h
    have hrej : (v.projection_onto_plane ((s.points 0).sub (s.points 1))).normSq ≠ 0 := by
      intro h0
      apply h
      rw [← normSq_projection_onto_plane hn, h0, zero_mul]
    have hw := ne_zeros_of_normSq hrej
    refine ⟨le_of_eq (norm_resized hw hr), ?_⟩
    rw [dot_resized v hw, dot_projection_onto_plane hn]
    exact mul_nonneg (div_nonneg (normSq_nonneg _) (zero_le_norm _)) hr

/-! ## Lemmas on `support<Tetrahedron>` -/

theorem max_element_const (d : K) : max_element [d, d, d] = 0 := by
  simp [max_element, scanBest]

/-- Outside the collinear branch `support<Tetrahedron>` returns `points[i_best]`. -/
theorem support_Tetrahedron_of_not_collinear [FloorRing K] (sqrt : K → K) (v : Vec3 K)
    (s : Tetrahedron K) (h : ((s.normal (s.i_best sqrt v)).cross v).normSq ≠ 0) :
    support_Tetrahedron sqrt v s = s.points (idx4 (s.i_best sqrt v)) := by
  unfold support_Tetrahedron
  simp only [isCoolinearWith, h, decide_False, List.map_cons, List.map_nil, max_element_const,
    add_zero, ite_self, Bool.false_eq_true, if_false]

theorem Tetrahedron.normal_zero (s : Tetrahedron K) :
    s.normal 0 = ((s.points 1).sub (s.points 2)).cross ((s.points 1).sub (s.points 3)) := rfl

theorem Tetrahedron.normal_one (s : Tetrahedron K) :
    s.normal 1 = ((s.points 2).sub (s.points 3)).cross ((s.points 2).sub (s.points 0)) := rfl

theorem Tetrahedron.normal_two (s : Tetrahedron K) :
    s.normal 2 = ((s.points 3).sub (s.points 0)).cross ((s.points 3).sub (s.points 1)) := rfl

theorem Tetrahedron.normal_three (s : Tetrahedron K) :
    s.normal 3 = ((s.points 0).sub (s.points 1)).cross ((s.points 0).sub (s.points 2)) := rfl

theorem toInt_zero [FloorRing K] : toInt (0 : K) = 0 := by
  simp [toInt]

/-- A value strictly between `-1` and `1` is converted to the integer `0`. -/
theorem toInt_eq_zero [FloorRing K] {x : K} (h : |x| < 1) : toInt x = 0 := by
  rw [abs_lt] at h
  unfold toInt
  split_ifs with h0
  · exact Int.floor_eq_zero_iff.mpr ⟨h0, h.2⟩
  · exact Int.ceil_eq_zero_iff.mpr ⟨h.1, le_of_lt (not_le.mp h0)⟩

/-- When the first cosine is converted to `0`, no later one has a smaller
absolute value after conversion, and `std::min_element` stays at position `0`. -/
theorem i_best_eq_zero [FloorRing K] (sqrt : K → K) (v : Vec3 K) (s : Tetrahedron K)
    (h : toInt ((v.normalized sqrt).dot ((s.normal 0).normalized sqrt)) = 0) :
    s.i_best sqrt v = 0 := by
  have hn : ∀ z : ℤ, ¬ |z| < 0 := fun z => not_lt.mpr (abs_nonneg z)
  simp [Tetrahedron.i_best, Tetrahedron.cosines, min_element, scanBest, h, hn]

/-- On a box with positive extent on every axis the sorted array is in
lexicographic order and the halvings pick each coordinate by the sign of the
matching direction component. -/
theorem support_Aabb_of_strict (v : Vec3 K) (s : Aabb K)
    (hx : s.min.x < s.max.x) (hy : s.min.y < s.max.y) (hz : s.min.z < s.max.z) :
    support_Aabb v s =
      ⟨if v.x > 0 then s.max.x else s.min.x,
       if v.y > 0 then s.max.y else s.min.y,
       if v.z > 0 then s.max.z else s.min.z⟩ := by
  have px : 0 < (s.max.x - s.min.x) / 2 := by linarith
  have py : 0 < (s.max.y - s.min.y) / 2 := by linarith
  have pz : 0 < (s.max.z - s.min.z) / 2 := by linarith
  unfold support_Aabb
  rw [Aabb.corners_eq, sort_halfCorners px py pz]
  by_cases cx : v.x > 0 <;> by_cases cy : v.y > 0 <;> by_cases cz : v.z > 0 <;>
    simp [bisect, cx, cy, cz, Aabb.mid_point, Aabb.main_diagonal, add, sub, neg, scale] <;>
    refine ⟨?_, ?_, ?_⟩ <;> ring

/-- One coordinate of the farthest-corner argument. -/
theorem mul_le_mul_pick {a lo hi c : K} (h : lo ≤ hi) (hc : c = lo ∨ c = hi) :
    a * c ≤ a * (if a > 0 then hi else lo) := by
  by_cases ha : a > 0
  · rw [if_pos ha]
    rcases hc with rfl | rfl
    · exact mul_le_mul_of_nonneg_left h ha.le
    · exact le_refl _
  · rw [if_neg ha]
    rcases hc with rfl | rfl
    · exact le_refl _
    · exact mul_le_mul_of_nonpos_left h (not_lt.mp ha)

/-- On a box with positive extent on every axis the returned corner is a
farthest corner along the direction. -/
theorem support_Aabb_strict_farthest (v : Vec3 K) (s : Aabb K)
    (hx : s.min.x < s.max.x) (hy : s.min.y < s.max.y) (hz : s.min.z < s.max.z)
    (c : Vec3 K) (hc : s.IsCorner c) : v.dot c ≤ v.dot (support_Aabb v s) := by
  rw [support_Aabb_of_strict v s hx hy hz]
  obtain ⟨h1, h2, h3⟩ := hc
  simp only [dot]
  have e1 := mul_le_mul_pick (a := v.x) hx.le h1
  have e2 := mul_le_mul_pick (a := v.y) hy.le h2
  have e3 := mul_le_mul_pick (a := v.z) hz.le h3
  linarith

theorem scale_scale (a : Vec3 K) (k m : K) : (a.scale k).scale m = a.scale (k * m) := by
  simp only [scale, Vec3.mk.injEq]
  refine ⟨?_, ?_, ?_⟩ <;> ring

/-- A non-zero cross product with `n` leaves a non-zero rejection from `n`. -/
theorem projection_onto_plane_ne_zeros {v n : Vec3 K} (h : (v.cross n).normSq ≠ 0) :
    v.projection_onto_plane n ≠ zeros := by
  have hn := normSq_ne_zero_of_cross h
  apply ne_zeros_of_normSq
  intro h0
  apply h
  rw [← normSq_projection_onto_plane hn, h0, zero_mul]

theorem dot_zeros_left (a : Vec3 K) : (zeros : Vec3 K).dot a = 0 := by
  simp [dot, zeros]

/-- The four normals against the edge from the next vertex to their own vertex:
minus the triple product for the even indices, plus it for the odd ones. -/
theorem normal_dot_edge (s : Tetrahedron K) :
    (s.normal 0).dot ((s.points 0).sub (s.points 1)) = -s.triple ∧
    (s.normal 1).dot ((s.points 1).sub (s.points 2)) = s.triple ∧
    (s.normal 2).dot ((s.points 2).sub (s.points 3)) = -s.triple ∧
    (s.normal 3).dot ((s.points 3).sub (s.points 0)) = s.triple := by
  refine ⟨?_, ?_, ?_, ?_⟩ <;>
    (simp only [Tetrahedron.normal_zero, Tetrahedron.normal_one, Tetrahedron.normal_two,
      Tetrahedron.normal_three, Tetrahedron.triple, dot, cross, sub, add, neg]; ring)

theorem normal_ne_zeros (s : Tetrahedron K) (h : s.IsNondegenerate) (j : Nat) (hj : j < 4) :
    s.normal j ≠ zeros := by
  obtain ⟨h0, h1, h2, h3⟩ := normal_dot_edge s
  have hD : s.triple ≠ 0 := h
  intro hz
  interval_cases j
  · rw [hz, dot_zeros_left] at h0; exact hD (by linarith)
  · rw [hz, dot_zeros_left] at h1; exact hD (by linarith)
  · rw [hz, dot_zeros_left] at h2; exact hD (by linarith)
  · rw [hz, dot_zeros_left] at h3; exact hD (by linarith)

/-- The cosine of `support<Tetrahedron>` for non-zero vectors: the dot product
divided by both norms. -/
theorem cos_eq {v n : Vec3 ℝ} (hv : v ≠ zeros) (hn : n ≠ zeros) :
    (v.normalized Real.sqrt).dot (n.normalized Real.sqrt)
      = v.dot n * (1 / v.norm Real.sqrt) * (1 / n.norm Real.sqrt) := by
  rw [normalized_of_ne hv, normalized_of_ne hn, dot_scale, dot_scale_left]

theorem cos_mul_self {v n : Vec3 ℝ} (hv : v ≠ zeros) (hn : n ≠ zeros) :
    (v.normalized Real.sqrt).dot (n.normalized Real.sqrt)
        * (v.normalized Real.sqrt).dot (n.normalized Real.sqrt) * (v.normSq * n.normSq)
      = v.dot n * v.dot n := by
  have hLv := norm_pos_of_ne hv
  have hLn := norm_pos_of_ne hn
  have ha : 1 / v.norm Real.sqrt * v.norm Real.sqrt = 1 := by field_simp
  have hb : 1 / n.norm Real.sqrt * n.norm Real.sqrt = 1 := by field_simp
  rw [cos_eq hv hn, ← norm_mul_self v, ← norm_mul_self n]
  calc v.dot n * (1 / v.norm Real.sqrt) * (1 / n.norm Real.sqrt)
          * (v.dot n * (1 / v.norm Real.sqrt) * (1 / n.norm Real.sqrt))
          * (v.norm Real.sqrt * v.norm Real.sqrt * (n.norm Real.sqrt * n.norm Real.sqrt))
      = v.dot n * v.dot n * ((1 / v.norm Real.sqrt * v.norm Real.sqrt)
          * (1 / v.norm Real.sqrt * v.norm Real.sqrt))
          * ((1 / n.norm Real.sqrt * n.norm Real.sqrt)
          * (1 / n.norm Real.sqrt * n.norm Real.sqrt)) := by ring
    _ = v.dot n * v.dot n := by rw [ha, hb]; ring

/-- The cosine of largest possible size: a cosine of absolute value at least `1`
forces a zero cross product. -/
theorem cross_eq_zero_of_one_le_abs_cos {v n : Vec3 ℝ} (hv : v ≠ zeros) (hn : n ≠ zeros)
    (h : 1 ≤ |(v.normalized Real.sqrt).dot (n.normalized Real.sqrt)|) :
    (n.cross v).normSq = 0 := by
  have hsq := cos_mul_self hv hn
  have hcs := dot_mul_self_le v n
  have hV : 0 < v.normSq := lt_of_le_of_ne (normSq_nonneg v)
    (fun h0 => hv ((normSq_eq_zero_iff v).mp h0.symm))
  have hN : 0 < n.normSq := lt_of_le_of_ne (normSq_nonneg n)
    (fun h0 => hn ((normSq_eq_zero_iff n).mp h0.symm))
  have hcc : 1 ≤ (v.normalized Real.sqrt).dot (n.normalized Real.sqrt)
      * (v.normalized Real.sqrt).dot (n.normalized Real.sqrt) := by
    rw [← abs_mul_abs_self]
    nlinarith [abs_nonneg ((v.normalized Real.sqrt).dot (n.normalized Real.sqrt))]
  have hVN : 0 < v.normSq * n.normSq := mul_pos hV hN
  rw [normSq_cross, dot_comm n v]
  nlinarith

/-- A non-zero cross product of non-zero vectors gives a cosine strictly between
`-1` and `1`. -/
theorem abs_cos_lt_one {v n : Vec3 ℝ} (hv : v ≠ zeros) (hn : n ≠ zeros)
    (h : (n.cross v).normSq ≠ 0) :
    |(v.normalized Real.sqrt).dot (n.normalized Real.sqrt)| < 1 := by
  by_contra hge
  exact h (cross_eq_zero_of_one_le_abs_cos hv hn (not_lt.mp hge))

/-- The cosine has the sign of the dot product. -/
theorem cos_pos {v n : Vec3 ℝ} (hv : v ≠ zeros) (hn : n ≠ zeros) (h : 0 < v.dot n) :
    0 < (v.normalized Real.sqrt).dot (n.normalized Real.sqrt) := by
  rw [cos_eq hv hn]
  have hLv := norm_pos_of_ne hv
  have hLn := norm_pos_of_ne hn
  positivity

/-- The cosine vanishes with the dot product. -/
theorem cos_eq_zero {v n : Vec3 ℝ} (hv : v ≠ zeros) (hn : n ≠ zeros) (h : v.dot n = 0) :
    (v.normalized Real.sqrt).dot (n.normalized Real.sqrt) = 0 := by
  rw [cos_eq hv hn, h, zero_mul, zero_mul]

/-- A non-zero dot product gives a non-zero cosine. -/
theorem cos_ne_zero {v n : Vec3 ℝ} (hv : v ≠ zeros) (hn : n ≠ zeros) (h : v.dot n ≠ 0) :
    (v.normalized Real.sqrt).dot (n.normalized Real.sqrt) ≠ 0 := by
  rw [cos_eq hv hn]
  have hLv := norm_pos_of_ne hv
  have hLn := norm_pos_of_ne hn
  exact mul_ne_zero (mul_ne_zero h (one_div_ne_zero hLv.ne')) (one_div_ne_zero hLn.ne')

/-- The first branch of `support<Tetrahedron>`: a positive best cosine returns
`points[i_best]`. -/
theorem support_Tetrahedron_of_pos [FloorRing K] (sqrt : K → K) (v : Vec3 K) (s : Tetrahedron K)
    (h : (s.cosines sqrt v).getD (s.i_best sqrt v) 0 > 0) :
    support_Tetrahedron sqrt v s = s.points (idx4 (s.i_best sqrt v)) := by
  unfold support_Tetrahedron
  simp only [h, if_true]

theorem regularTet_isNondegenerate : (regularTet : Tetrahedron ℝ).IsNondegenerate := by
  simp only [Tetrahedron.IsNondegenerate, Tetrahedron.triple]
  norm_num [regularTet, dot, cross, sub, add, neg]

theorem cosines_eq (sqrt : K → K) (v : Vec3 K) (s : Tetrahedron K) :
    s.cosines sqrt v
      = [(v.normalized sqrt).dot ((s.normal 0).normalized sqrt),
         (v.normalized sqrt).dot ((s.normal 1).normalized sqrt),
         (v.normalized sqrt).dot ((s.normal 2).normalized sqrt),
         (v.normalized sqrt).dot ((s.normal 3).normalized sqrt)] := rfl

theorem cosines_getD (sqrt : K → K) (v : Vec3 K) (s : Tetrahedron K) (j : Nat) (hj : j < 4) :
    (s.cosines sqrt v).getD j 0 = (v.normalized sqrt).dot ((s.normal j).normalized sqrt) := by
  rw [cosines_eq]
  interval_cases j <;> rfl

theorem regularTet_normal_one : (regularTet : Tetrahedron ℝ).normal 1 = ⟨-4, 4, 4⟩ := by
  rw [Tetrahedron.normal_one]
  norm_num [regularTet, cross, sub, add, neg]

theorem regularTet_normal_two : (regularTet : Tetrahedron ℝ).normal 2 = ⟨-4, 4, -4⟩ := by
  rw [Tetrahedron.normal_two]
  norm_num [regularTet, cross, sub, add, neg]

theorem regularTet_normal_three : (regularTet : Tetrahedron ℝ).normal 3 = ⟨4, 4, -4⟩ := by
  rw [Tetrahedron.normal_three]
  norm_num [regularTet, cross, sub, add, neg]

theorem regularTet_normal_zero : (regularTet : Tetrahedron ℝ).normal 0 = ⟨4, 4, 4⟩ := by
  rw [Tetrahedron.normal_zero]
  norm_num [regularTet, cross, sub, add, neg]

/-! ## Lemmas on the binary32 reading -/

/-- With the identity as rounding operator the rounded `support<Aabb>` is the
exact one. -/
theorem support_Aabb_exact_reading (v : Vec3 K) (s : Aabb K) :
    Fp.support_Aabb (fun x => x) v s = support_Aabb v s := rfl

/-- With the identity as rounding operator the rounded `support<Capsule>` is the
exact one. -/
theorem support_Capsule_exact_reading (sqrt : K → K) (v : Vec3 K) (s : Capsule K) :
    Fp.support_Capsule (fun x => x) sqrt v s = support_Capsule sqrt v s := rfl

/-- A value within half a unit of the integer `n` is rounded to `n`. -/
theorem roundEven_of_abs_sub_lt [FloorRing K] {y : K} (n : ℤ) (h : |y - n| < 1 / 2) :
    roundEven y = n := by
  rw [abs_lt] at h
  obtain ⟨h1, h2⟩ := h
  unfold roundEven
  by_cases hy : (n : K) ≤ y
  · have hf : ⌊y⌋ = n := Int.floor_eq_iff.mpr ⟨hy, by linarith⟩
    rw [hf, if_pos (by linarith)]
  · have hf : ⌊y⌋ = n - 1 :=
      Int.floor_eq_iff.mpr ⟨by push_cast; linarith, by push_cast; linarith⟩
    rw [hf, if_neg (by push_cast; linarith), if_pos (by push_cast; linarith)]
    ring

/-- The rounding of a value of the binade `[2 ^ e, 2 ^ (e + 1))`: the unit in the
last place is `2 ^ (e - 23)`. -/
theorem round32_of_binade [FloorRing K] {x : K} (e n : ℤ) (he : -126 ≤ e)
    (h1 : (2 : K) ^ e ≤ |x|) (h2 : |x| < (2 : K) ^ (e + 1))
    (hn : roundEven (x / 2 ^ (e - 23)) = n) :
    round32 x = (n : K) * 2 ^ (e - 23) := by
  have hpos : (0 : K) < |x| := lt_of_lt_of_le (zpow_pos (by norm_num) e) h1
  have hlog : Int.log 2 |x| = e := by
    have ha : e ≤ Int.log 2 |x| :=
      (Int.zpow_le_iff_le_log (by norm_num) hpos).mp (by exact_mod_cast h1)
    have hb : Int.log 2 |x| < e + 1 :=
      (Int.lt_zpow_iff_log_lt (by norm_num) hpos).mp (by exact_mod_cast h2)
    omega
  have hu : ulpExponent x = e - 23 := by
    unfold ulpExponent
    rw [hlog, max_eq_left he]
  unfold round32
  rw [hu, hn]

/-- The rounding of a value of the binade `[2 ^ e, 2 ^ (e + 1))` that is within
half a unit in the last place of `n * 2 ^ (e - 23)`. -/
theorem round32_eq (x : ℝ) (e n : ℤ) (he : -126 ≤ e) (h1 : (2 : ℝ) ^ e ≤ |x|)
    (h2 : |x| < (2 : ℝ) ^ (e + 1)) (hn : |x / 2 ^ (e - 23) - n| < 1 / 2) :
    round32 x = (n : ℝ) * 2 ^ (e - 23) :=
  round32_of_binade e n he h1 h2 (roundEven_of_abs_sub_lt n hn)

theorem round32_zero [FloorRing K] : round32 (0 : K) = 0 := by
  simp [round32, roundEven]

theorem round32_one : round32 (1 : ℝ) = 1 := by
  rw [round32_eq 1 0 8388608 (by norm_num) (by norm_num) (by norm_num) (by norm_num)]
  norm_num

theorem round32_neg_one : round32 (-1 : ℝ) = -1 := by
  rw [round32_eq (-1) 0 (-8388608) (by norm_num) (by norm_num) (by norm_num) (by norm_num)]
  norm_num

theorem round32_two : round32 (2 : ℝ) = 2 := by
  rw [round32_eq 2 1 8388608 (by norm_num) (by norm_num) (by norm_num) (by norm_num)]
  norm_num

theorem round32_four : round32 (4 : ℝ) = 4 := by
  rw [round32_eq 4 2 8388608 (by norm_num) (by norm_num) (by norm_num) (by norm_num)]
  norm_num

theorem round32_neg_four : round32 (-4 : ℝ) = -4 := by
  rw [round32_eq (-4) 2 (-8388608) (by norm_num) (by norm_num) (by norm_num) (by norm_num)]
  norm_num

theorem round32_sixteen : round32 (16 : ℝ) = 16 := by
  rw [round32_eq 16 4 8388608 (by norm_num) (by norm_num) (by norm_num) (by norm_num)]
  norm_num

theorem round32_thirty_two : round32 (32 : ℝ) = 32 := by
  rw [round32_eq 32 5 8388608 (by norm_num) (by norm_num) (by norm_num) (by norm_num)]
  norm_num

/-- The binary32 square root of `2` is `11863283 / 2 ^ 23`. -/
theorem round32_sqrt_two : round32 (Real.sqrt 2) = 11863283 / 8388608 := by
  have hlo : (11863283 : ℝ) / 8388608 ≤ Real.sqrt 2 := by
    apply Real.le_sqrt_of_sq_le
    norm_num
  have hhi : Real.sqrt 2 < (11863283 + 1 / 2 : ℝ) / 8388608 := by
    rw [Real.sqrt_lt' (by norm_num)]
    norm_num
  generalize Real.sqrt 2 = t at hlo hhi ⊢
  have hpos : (0 : ℝ) ≤ t := le_trans (by norm_num) hlo
  rw [round32_eq t 0 11863283 (by norm_num)
    (by rw [abs_of_nonneg hpos]; norm_num; linarith)
    (by rw [abs_of_nonneg hpos]; norm_num; linarith)
    (by rw [abs_lt]; norm_num; constructor <;> linarith)]
  norm_num

/-- The binary32 quotient `1.f / len` for `len = 11863283 / 2 ^ 23`. -/
theorem round32_inv_sqrt_two : round32 ((8388608 : ℝ) / 11863283) = 11863283 / 16777216 := by
  rw [round32_eq _ (-1) 11863283 (by norm_num) (by norm_num [abs_of_pos])
    (by norm_num [abs_of_pos]) (by norm_num [abs_lt])]
  norm_num

/-- The number `11863283 / 2 ^ 24` is a binary32 number. -/
theorem round32_half_sqrt_two :
    round32 ((11863283 : ℝ) / 16777216) = 11863283 / 16777216 := by
  rw [round32_eq _ (-1) 11863283 (by norm_num) (by norm_num [abs_of_pos])
    (by norm_num [abs_of_pos]) (by norm_num)]
  norm_num

/-- The binary32 square of `11863283 / 2 ^ 24`. -/
theorem round32_half_sqrt_two_sq :
    round32 ((140737483538089 : ℝ) / 281474976710656) = 16777215 / 33554432 := by
  rw [round32_eq _ (-2) 16777215 (by norm_num) (by norm_num [abs_of_pos])
    (by norm_num [abs_of_pos]) (by norm_num [abs_lt])]
  norm_num

/-- The number `1 - 2 ^ (-24)` is a binary32 number. -/
theorem round32_below_one : round32 ((16777215 : ℝ) / 16777216) = 16777215 / 16777216 := by
  rw [round32_eq _ (-1) 16777215 (by norm_num) (by norm_num [abs_of_pos])
    (by norm_num [abs_of_pos]) (by norm_num)]
  norm_num

/-- The binary32 square root of `1 - 2 ^ (-24)` is `1 - 2 ^ (-24)`. -/
theorem round32_sqrt_below_one :
    round32 (Real.sqrt (16777215 / 16777216)) = 16777215 / 16777216 := by
  have hlo : (16777215 : ℝ) / 16777216 ≤ Real.sqrt (16777215 / 16777216) := by
    apply Real.le_sqrt_of_sq_le
    norm_num
  have hhi : Real.sqrt (16777215 / 16777216) < (16777215 + 1 / 2 : ℝ) / 16777216 := by
    rw [Real.sqrt_lt' (by norm_num)]
    norm_num
  generalize Real.sqrt (16777215 / 16777216) = t at hlo hhi ⊢
  have hpos : (0 : ℝ) ≤ t := le_trans (by norm_num) hlo
  rw [round32_eq t (-1) 16777215 (by norm_num)
    (by rw [abs_of_nonneg hpos]; norm_num; linarith)
    (by rw [abs_of_nonneg hpos]; norm_num; linarith)
    (by rw [abs_lt]; norm_num; constructor <;> linarith)]
  norm_num

/-- The three examples on the box `(0,0,0)`-`(2,2,2)` in binary32 arithmetic: no
result is rounded, and the support points are those of exact arithmetic. -/
theorem support_Aabb_binary32_examples :
    Fp.support_Aabb round32 (⟨1, 1, 1⟩ : Vec3 ℝ) ⟨⟨0, 0, 0⟩, ⟨2, 2, 2⟩⟩ = ⟨2, 2, 2⟩ ∧
    Fp.support_Aabb round32 (⟨-1, 1, 1⟩ : Vec3 ℝ) ⟨⟨0, 0, 0⟩, ⟨2, 2, 2⟩⟩ = ⟨0, 2, 2⟩ ∧
    Fp.support_Aabb round32 (⟨0, 0, 1⟩ : Vec3 ℝ) ⟨⟨0, 0, 0⟩, ⟨2, 2, 2⟩⟩ = ⟨0, 0, 2⟩ := by
  refine ⟨?_, ?_, ?_⟩ <;>
    norm_num [Fp.support_Aabb, Fp.corners, Fp.mid_point, Fp.main_diagonal, Fp.add, Fp.sub,
      Fp.scale, Fp.mul, Fp.cornerBefore, neg, std_sort, sortInsert, bisect, round32_zero,
      round32_one, round32_neg_one, round32_two]

/-! ## The claims -/

/-- C1: for a sphere of radius `≥ 0` and a non-zero direction `v`, the support
point lies on the surface (its offset from the centre has norm `radius`) and no
surface point is farther along `v`. -/
theorem support_Sphere_contract (v : Vec3 ℝ) (s : Sphere ℝ)
    (hr : 0 ≤ s.radius) (hv : v ≠ zeros) :
    ((support_Sphere Real.sqrt v s).sub s.center).norm Real.sqrt = s.radius ∧
    ∀ p : Vec3 ℝ, (p.sub s.center).norm Real.sqrt = s.radius →
      v.dot (p.sub s.center) ≤ v.dot ((support_Sphere Real.sqrt v s).sub s.center) := by
  have hL := norm_pos_of_ne hv
  have hLL := norm_mul_self v
  have hoff : (support_Sphere Real.sqrt v s).sub s.center
      = (v.scale (1 / v.norm Real.sqrt)).scale s.radius := by
    unfold support_Sphere resized
    rw [Vec3.add_sub_same, normalized_of_ne hv]
  rw [hoff]
  constructor
  · have h1 : ((v.scale (1 / v.norm Real.sqrt)).scale s.radius).normSq
        = s.radius * s.radius := by
      rw [normSq_scale, normSq_scale, ← hLL]
      field_simp
    show Real.sqrt _ = _
    rw [h1, Real.sqrt_mul_self hr]
  · intro p hp
    have h2 : v.dot ((v.scale (1 / v.norm Real.sqrt)).scale s.radius)
        = v.norm Real.sqrt * s.radius := by
      rw [dot_scale, dot_scale]
      show v.normSq * _ * _ = _
      rw [← hLL]
      field_simp
    rw [h2, ← hp]
    exact dot_le_norm_mul_norm v _

/-- C1 at the sphere of centre `(1,2,3)` and radius `2` with direction `(3,0,4)`. -/
theorem support_Sphere_contract_witness :
    (0 : ℝ) ≤ (⟨⟨1, 2, 3⟩, 2⟩ : Sphere ℝ).radius ∧ (⟨3, 0, 4⟩ : Vec3 ℝ) ≠ zeros ∧
    ((support_Sphere Real.sqrt ⟨3, 0, 4⟩ (⟨⟨1, 2, 3⟩, 2⟩ : Sphere ℝ)).sub
        ⟨1, 2, 3⟩).norm Real.sqrt = 2 ∧
    ∀ p : Vec3 ℝ, (p.sub ⟨1, 2, 3⟩).norm Real.sqrt = 2 →
      (⟨3, 0, 4⟩ : Vec3 ℝ).dot (p.sub ⟨1, 2, 3⟩)
        ≤ (⟨3, 0, 4⟩ : Vec3 ℝ).dot
            ((support_Sphere Real.sqrt ⟨3, 0, 4⟩ (⟨⟨1, 2, 3⟩, 2⟩ : Sphere ℝ)).sub ⟨1, 2, 3⟩) :=
  ⟨by norm_num, by simp [zeros],
    support_Sphere_contract ⟨3, 0, 4⟩ ⟨⟨1, 2, 3⟩, 2⟩ (by norm_num) (by simp [zeros])⟩

/-- C2, evaluated on a flat box: for the box `min = (0,0,0)`, `max = (2,2,0)`
(so `min ≤ max` on every axis) and `v = (-1,1,1)` the code returns `(2,2,0)`,
while the corner `(0,2,0)` of the same box lies strictly farther along `v`. -/
theorem support_Aabb_flat_box_not_farthest :
    support_Aabb (⟨-1, 1, 1⟩ : Vec3 ℝ) ⟨⟨0, 0, 0⟩, ⟨2, 2, 0⟩⟩ = ⟨2, 2, 0⟩ ∧
    (⟨⟨0, 0, 0⟩, ⟨2, 2, 0⟩⟩ : Aabb ℝ).IsCorner ⟨0, 2, 0⟩ ∧
    (⟨-1, 1, 1⟩ : Vec3 ℝ).dot (support_Aabb (⟨-1, 1, 1⟩ : Vec3 ℝ) ⟨⟨0, 0, 0⟩, ⟨2, 2, 0⟩⟩)
      < (⟨-1, 1, 1⟩ : Vec3 ℝ).dot ⟨0, 2, 0⟩ := by
  have h : support_Aabb (⟨-1, 1, 1⟩ : Vec3 ℝ) ⟨⟨0, 0, 0⟩, ⟨2, 2, 0⟩⟩ = ⟨2, 2, 0⟩ := by
    norm_num [support_Aabb, std_sort, sortInsert, cornerBefore, Aabb.corners, Aabb.mid_point,
      Aabb.main_diagonal, bisect, Vec3.add, Vec3.sub, Vec3.neg, Vec3.scale, Vec3.mul]
  refine ⟨h, ?_, ?_⟩
  · simp [Aabb.IsCorner]
  · rw [h]
    norm_num [dot]

/-- C4, refuted as stated: for the capsule with endpoints `(0,0,0)`, `(0,0,4)`
and radius `1` and the direction `v = (0,0,1)`, the point `(0,0,5)` belongs to
the capsule and lies strictly farther along `v` than the returned point. -/
theorem support_Capsule_not_farthest :
    (0 : ℝ) ≤ (capsule04 : Capsule ℝ).radius ∧
    (capsule04 : Capsule ℝ).Contains Real.sqrt ⟨0, 0, 5⟩ ∧
    (⟨0, 0, 1⟩ : Vec3 ℝ).dot (support_Capsule Real.sqrt ⟨0, 0, 1⟩ capsule04)
      < (⟨0, 0, 1⟩ : Vec3 ℝ).dot ⟨0, 0, 5⟩ := by
  refine ⟨by norm_num [capsule04], ?_, ?_⟩
  · refine ⟨1, by norm_num, le_refl _, ?_⟩
    norm_num [capsule04, Capsule.segmentPoint, Vec3.norm, normSq, dot, sub, add, neg, scale]
  · norm_num [capsule04, support_Capsule, isCoolinearWith, cross, sub, add, neg, normSq, dot]

/-- C4, amended: in exact real arithmetic, for a capsule of radius `≥ 0` and any
direction `v` the returned point belongs to the capsule and is at least as far along `v` as every
point of the medial segment; it is farthest along `v` among all points of the
capsule when `v` is perpendicular to the axis and not collinear with it. -/
theorem support_Capsule_in_capsule (v : Vec3 ℝ) (s : Capsule ℝ) (hr : 0 ≤ s.radius) :
    s.Contains Real.sqrt (support_Capsule Real.sqrt v s) ∧
    (∀ t : ℝ, 0 ≤ t → t ≤ 1 →
      v.dot (s.segmentPoint t) ≤ v.dot (support_Capsule Real.sqrt v s)) ∧
    (v.dot ((s.points 0).sub (s.points 1)) = 0 →
      (v.cross ((s.points 0).sub (s.points 1))).normSq ≠ 0 →
      ∀ q : Vec3 ℝ, s.Contains Real.sqrt q →
        v.dot q ≤ v.dot (support_Capsule Real.sqrt v s)) := by
  obtain ⟨hlen, hdot⟩ := capsule_offset v s hr
  rw [support_Capsule_eq]
  refine ⟨?_, ?_, ?_⟩
  · by_cases hd : v.dot ((s.points 0).sub (s.points 1)) < 0
    · refine ⟨1, by norm_num, le_refl _, ?_⟩
      rw [Capsule.segmentPoint_one, if_pos hd, Vec3.add_sub_same]
      exact hlen
    · refine ⟨0, le_refl _, by norm_num, ?_⟩
      rw [Capsule.segmentPoint_zero, if_neg hd, Vec3.add_sub_same]
      exact hlen
  · intro t ht0 ht1
    rw [dot_add, Capsule.dot_segmentPoint]
    by_cases hd : v.dot ((s.points 0).sub (s.points 1)) < 0
    · rw [if_pos hd]
      have h1 : v.dot (s.points 1)
          = v.dot (s.points 0) - v.dot ((s.points 0).sub (s.points 1)) := by
        rw [dot_sub]; ring
      rw [h1]
      nlinarith
    · rw [if_neg hd]
      push_neg at hd
      nlinarith [mul_nonneg ht0 hd]
  · intro hperp hcross q hq
    obtain ⟨t, _, _, hqt⟩ := hq
    have hv : v ≠ zeros := by
      rintro rfl
      apply hcross
      simp [cross, zeros, normSq, dot]
    have hrej : v.projection_onto_plane ((s.points 0).sub (s.points 1)) = v := by
      unfold projection_onto_plane projection_onto
      rw [hperp, zero_div]
      cases v
      simp [scale, sub, add, neg]
    rw [if_neg (by rw [hperp]; exact lt_irrefl 0), if_neg hcross, hrej, dot_add,
      dot_resized v hv]
    have hsplit : v.dot q = v.dot (s.segmentPoint t) + v.dot (q.sub (s.segmentPoint t)) := by
      rw [dot_sub]; ring
    have hcs := dot_le_norm_mul_norm v (q.sub (s.segmentPoint t))
    have hL := norm_pos_of_ne hv
    have hself : v.dot v / v.norm Real.sqrt = v.norm Real.sqrt := by
      have := norm_mul_self v
      unfold normSq at this
      rw [← this]
      field_simp
    rw [hsplit, Capsule.dot_segmentPoint, hperp, hself]
    nlinarith [mul_le_mul_of_nonneg_left hqt hL.le]

/-- C4, amended, at the capsule with endpoints `(0,0,0)`, `(0,0,4)`, radius `1`
and the direction `(1,0,0)`, which is perpendicular to the axis. -/
theorem support_Capsule_in_capsule_witness :
    (0 : ℝ) ≤ (capsule04 : Capsule ℝ).radius ∧
    (⟨1, 0, 0⟩ : Vec3 ℝ).dot
      (((capsule04 : Capsule ℝ).points 0).sub (capsule04.points 1)) = 0 ∧
    ((⟨1, 0, 0⟩ : Vec3 ℝ).cross
      (((capsule04 : Capsule ℝ).points 0).sub (capsule04.points 1))).normSq ≠ 0 ∧
    (capsule04 : Capsule ℝ).Contains Real.sqrt (support_Capsule Real.sqrt ⟨1, 0, 0⟩ capsule04) ∧
    (∀ t : ℝ, 0 ≤ t → t ≤ 1 →
      (⟨1, 0, 0⟩ : Vec3 ℝ).dot ((capsule04 : Capsule ℝ).segmentPoint t)
        ≤ (⟨1, 0, 0⟩ : Vec3 ℝ).dot (support_Capsule Real.sqrt ⟨1, 0, 0⟩ capsule04)) ∧
    ∀ q : Vec3 ℝ, (capsule04 : Capsule ℝ).Contains Real.sqrt q →
      (⟨1, 0, 0⟩ : Vec3 ℝ).dot q
        ≤ (⟨1, 0, 0⟩ : Vec3 ℝ).dot (support_Capsule Real.sqrt ⟨1, 0, 0⟩ capsule04) := by
  have hr : (0 : ℝ) ≤ (capsule04 : Capsule ℝ).radius := by norm_num [capsule04]
  have hperp : (⟨1, 0, 0⟩ : Vec3 ℝ).dot
      (((capsule04 : Capsule ℝ).points 0).sub (capsule04.points 1)) = 0 := by
    norm_num [capsule04, dot, sub, add, neg]
  have hcross : ((⟨1, 0, 0⟩ : Vec3 ℝ).cross
      (((capsule04 : Capsule ℝ).points 0).sub (capsule04.points 1))).normSq ≠ 0 := by
    norm_num [capsule04, cross, normSq, dot, sub, add, neg]
  have h := support_Capsule_in_capsule ⟨1, 0, 0⟩ capsule04 hr
  exact ⟨hr, hperp, hcross, h.1, h.2.1, h.2.2 hperp hcross⟩

/-- C6: scaling the direction by a scalar `k > 0` leaves the support point of a
sphere, a box, a tetrahedron and a capsule unchanged (exact real arithmetic). -/
theorem support_scale_invariant (v : Vec3 ℝ) (k : ℝ) (hk : 0 < k)
    (sphere : Sphere ℝ) (box : Aabb ℝ) (tet : Tetrahedron ℝ) (capsule : Capsule ℝ) :
    support_Sphere Real.sqrt (v.scale k) sphere = support_Sphere Real.sqrt v sphere ∧
    support_Aabb (v.scale k) box = support_Aabb v box ∧
    support_Tetrahedron Real.sqrt (v.scale k) tet = support_Tetrahedron Real.sqrt v tet ∧
    support_Capsule Real.sqrt (v.scale k) capsule = support_Capsule Real.sqrt v capsule := by
  refine ⟨?_, ?_, ?_, ?_⟩
  · unfold support_Sphere
    rw [resized_scale v hk]
  · have hx : (v.x * k > 0) = (v.x > 0) :=
      propext ⟨fun h => (pos_iff_pos_of_mul_pos h).mpr hk, fun h => mul_pos h hk⟩
    have hy : (v.y * k > 0) = (v.y > 0) :=
      propext ⟨fun h => (pos_iff_pos_of_mul_pos h).mpr hk, fun h => mul_pos h hk⟩
    have hz : (v.z * k > 0) = (v.z > 0) :=
      propext ⟨fun h => (pos_iff_pos_of_mul_pos h).mpr hk, fun h => mul_pos h hk⟩
    simp only [support_Aabb, scale, hx, hy, hz]
  · have hcos : tet.cosines Real.sqrt (v.scale k) = tet.cosines Real.sqrt v := by
      unfold Tetrahedron.cosines
      rw [normalized_scale v hk]
    have hbest : tet.i_best Real.sqrt (v.scale k) = tet.i_best Real.sqrt v := by
      unfold Tetrahedron.i_best
      rw [hcos]
    have hcol : ∀ n : Vec3 ℝ, n.isCoolinearWith (v.scale k) = n.isCoolinearWith v := by
      intro n
      unfold isCoolinearWith
      rw [cross_scale_right]
      simp only [normSq_scale_eq_zero_iff _ hk]
    simp only [support_Tetrahedron, hcos, hbest, hcol]
  · have hdot : ((v.scale k).dot ((capsule.points 0).sub (capsule.points 1)) < 0)
        = (v.dot ((capsule.points 0).sub (capsule.points 1)) < 0) := by
      rw [dot_scale_left]
      exact propext ⟨fun h => by nlinarith, fun h => by nlinarith⟩
    have hcol : (v.scale k).isCoolinearWith ((capsule.points 0).sub (capsule.points 1))
        = v.isCoolinearWith ((capsule.points 0).sub (capsule.points 1)) := by
      unfold isCoolinearWith
      rw [cross_scale_left]
      simp only [normSq_scale_eq_zero_iff _ hk]
    simp only [support_Capsule, hdot, hcol, projection_onto_plane_scale, resized_scale _ hk]

/-- C6 at `v = (3,0,4)`, `k = 2`, the sphere of centre `(1,2,3)` and radius `2`,
the box `(0,0,0)`-`(2,2,2)`, the regular tetrahedron and the capsule of the
examples. -/
theorem support_scale_invariant_witness :
    (0 : ℝ) < 2 ∧
    support_Sphere Real.sqrt ((⟨3, 0, 4⟩ : Vec3 ℝ).scale 2) ⟨⟨1, 2, 3⟩, 2⟩
      = support_Sphere Real.sqrt ⟨3, 0, 4⟩ ⟨⟨1, 2, 3⟩, 2⟩ ∧
    support_Aabb ((⟨3, 0, 4⟩ : Vec3 ℝ).scale 2) ⟨⟨0, 0, 0⟩, ⟨2, 2, 2⟩⟩
      = support_Aabb ⟨3, 0, 4⟩ ⟨⟨0, 0, 0⟩, ⟨2, 2, 2⟩⟩ ∧
    support_Tetrahedron Real.sqrt ((⟨3, 0, 4⟩ : Vec3 ℝ).scale 2) regularTet
      = support_Tetrahedron Real.sqrt ⟨3, 0, 4⟩ regularTet ∧
    support_Capsule Real.sqrt ((⟨3, 0, 4⟩ : Vec3 ℝ).scale 2) capsule04
      = support_Capsule Real.sqrt ⟨3, 0, 4⟩ capsule04 :=
  ⟨by norm_num,
    support_scale_invariant ⟨3, 0, 4⟩ 2 (by norm_num) ⟨⟨1, 2, 3⟩, 2⟩ ⟨⟨0, 0, 0⟩, ⟨2, 2, 2⟩⟩
      regularTet capsule04⟩

/-- C7: when the direction is collinear with the axis `p0 - p1` (their cross
product has zero squared norm) the capsule's support point is an endpoint,
whatever the radius: `p1` when `dot(v, p0 - p1) < 0`, `p0` otherwise. -/
theorem support_Capsule_collinear (sqrt : K → K) (v : Vec3 K) (s : Capsule K)
    (h : (v.cross ((s.points 0).sub (s.points 1))).normSq = 0) :
    support_Capsule sqrt v s =
      if v.dot ((s.points 0).sub (s.points 1)) < 0 then s.points 1 else s.points 0 := by
  simp [support_Capsule, isCoolinearWith, h]

/-- C7 at the capsule with endpoints `(0,0,0)`, `(0,0,4)`, radius `1` and
`v = (0,0,1)`: the support point is `(0,0,4)`. -/
theorem support_Capsule_collinear_witness :
    ((⟨0, 0, 1⟩ : Vec3 ℝ).cross
      (((capsule04 : Capsule ℝ).points 0).sub (capsule04.points 1))).normSq = 0 ∧
    support_Capsule Real.sqrt (⟨0, 0, 1⟩ : Vec3 ℝ) capsule04 = ⟨0, 0, 4⟩ := by
  have h : ((⟨0, 0, 1⟩ : Vec3 ℝ).cross
      (((capsule04 : Capsule ℝ).points 0).sub (capsule04.points 1))).normSq = 0 := by
    norm_num [capsule04, cross, sub, add, neg, normSq, dot]
  refine ⟨h, ?_⟩
  rw [support_Capsule_collinear Real.sqrt ⟨0, 0, 1⟩ capsule04 h]
  norm_num [capsule04, dot, sub, add, neg]

/-- C8, refuted as stated: for the capsule with `points[0] = (0,0,0)`,
`points[1] = (0,0,4)` and radius `1` the support point along `(1,0,0)` is not
`(1,0,4)`. -/
theorem support_Capsule_perpendicular_ne :
    support_Capsule Real.sqrt (⟨1, 0, 0⟩ : Vec3 ℝ) capsule04 ≠ ⟨1, 0, 4⟩ := by
  norm_num [capsule04, support_Capsule, isCoolinearWith, cross, sub, add, neg, normSq, dot,
    projection_onto_plane, projection_onto, resized, normalized, Vec3.norm, scale, Vec3.div]

/-- C8, amended: for the same capsule the support point along `(1,0,0)` is
`(1,0,0)`; `dot(v, points[0] - points[1])` is zero, not negative, so the
endpoint chosen is `points[0]`. -/
theorem support_Capsule_perpendicular :
    support_Capsule Real.sqrt (⟨1, 0, 0⟩ : Vec3 ℝ) capsule04 = ⟨1, 0, 0⟩ := by
  norm_num [capsule04, support_Capsule, isCoolinearWith, cross, sub, add, neg, normSq, dot,
    projection_onto_plane, projection_onto, resized, normalized, Vec3.norm, scale, Vec3.div]

/-- C9: for every sphere the support point along the zero direction is the
centre; the norm of the zero vector is `0`, so `normalized` takes its guarded
branch and returns the zero vector without dividing. -/
theorem support_Sphere_zero (s : Sphere ℝ) :
    (zeros : Vec3 ℝ).norm Real.sqrt = 0 ∧
    (zeros : Vec3 ℝ).normalized Real.sqrt = zeros ∧
    support_Sphere Real.sqrt zeros s = s.center := by
  refine ⟨norm_zeros, normalized_zeros, ?_⟩
  unfold support_Sphere resized
  rw [normalized_zeros, scale_zeros, add_zeros]

/-- C10: `normalized` returns the zero vector unchanged, and for a non-zero `v`
it returns a vector of norm exactly `1` with `normalized(v) * norm(v) = v`. -/
theorem normalized_contract (v : Vec3 ℝ) :
    (zeros : Vec3 ℝ).normalized Real.sqrt = zeros ∧
    (v ≠ zeros →
      (v.normalized Real.sqrt).norm Real.sqrt = 1 ∧
      (v.normalized Real.sqrt).scale (v.norm Real.sqrt) = v) := by
  refine ⟨normalized_zeros, fun hv => ?_⟩
  have hL := norm_pos_of_ne hv
  have hLL := norm_mul_self v
  rw [normalized_of_ne hv]
  constructor
  · have h1 : (v.scale (1 / v.norm Real.sqrt)).normSq = 1 := by
      rw [normSq_scale, ← hLL]
      field_simp
    show Real.sqrt _ = 1
    rw [h1, Real.sqrt_one]
  · cases v with
    | mk x y z =>
      simp only [scale, Vec3.mk.injEq]
      refine ⟨?_, ?_, ?_⟩ <;> field_simp

/-- C10 at `v = (3,0,4)`. -/
theorem normalized_contract_witness :
    (⟨3, 0, 4⟩ : Vec3 ℝ) ≠ zeros ∧
    (normalized Real.sqrt (⟨3, 0, 4⟩ : Vec3 ℝ)).norm Real.sqrt = 1 ∧
    (normalized Real.sqrt (⟨3, 0, 4⟩ : Vec3 ℝ)).scale (Vec3.norm Real.sqrt ⟨3, 0, 4⟩)
      = ⟨3, 0, 4⟩ :=
  ⟨by simp [zeros], (normalized_contract ⟨3, 0, 4⟩).2 (by simp [zeros])⟩

/-- C12, refuted as stated: the capsule with endpoints `(0,0,0)`, `(0,0,4)` and
radius `1` and the direction `v = (1,1,0)` have binary32 coordinates, and `v` is
not collinear with the axis.  In binary32 arithmetic the chosen endpoint is
`points[0] = (0,0,0)`, the projection of `v` onto the plane orthogonal to the
axis is `v`, its norm `sqrt 2` is rounded to `11863283 / 2 ^ 23`, the quotient
`1.f / len` to `11863283 / 2 ^ 24`, and the offset that the code adds is
`d = (11863283 / 2 ^ 24, 11863283 / 2 ^ 24, 0)`.  The norm of `d` is not the
radius `1` (its square is `2 * (11863283 / 2 ^ 24) ^ 2 < 1`), and the norm that
the code itself computes for `d` is `1 - 2 ^ (-24)`. -/
theorem support_Capsule_binary32 :
    (∀ x ∈ [(0 : ℝ), 1, 4], round32 x = x) ∧
    (0 : ℝ) ≤ (capsule04 : Capsule ℝ).radius ∧
    Fp.isCoolinearWith round32 (⟨1, 1, 0⟩ : Vec3 ℝ)
      (Fp.sub round32 ((capsule04 : Capsule ℝ).points 0) (capsule04.points 1)) = false ∧
    ¬ Fp.dot round32 (⟨1, 1, 0⟩ : Vec3 ℝ)
      (Fp.sub round32 ((capsule04 : Capsule ℝ).points 0) (capsule04.points 1)) < 0 ∧
    Fp.resized round32 (fun x => round32 (Real.sqrt x))
        (Fp.projection_onto_plane round32 (⟨1, 1, 0⟩ : Vec3 ℝ)
          (Fp.sub round32 ((capsule04 : Capsule ℝ).points 0) (capsule04.points 1)))
        (capsule04 : Capsule ℝ).radius
      = ⟨11863283 / 16777216, 11863283 / 16777216, 0⟩ ∧
    Fp.support_Capsule round32 (fun x => round32 (Real.sqrt x)) (⟨1, 1, 0⟩ : Vec3 ℝ) capsule04
      = ⟨11863283 / 16777216, 11863283 / 16777216, 0⟩ ∧
    (∀ d : Vec3 ℝ,
      Fp.support_Capsule round32 (fun x => round32 (Real.sqrt x)) (⟨1, 1, 0⟩ : Vec3 ℝ) capsule04
          = ((capsule04 : Capsule ℝ).points 0).add d →
        d.norm Real.sqrt ≠ (capsule04 : Capsule ℝ).radius) ∧
    Fp.norm round32 (fun x => round32 (Real.sqrt x))
        (⟨11863283 / 16777216, 11863283 / 16777216, 0⟩ : Vec3 ℝ)
      = 16777215 / 16777216 := by
  have hres : Fp.support_Capsule round32 (fun x => round32 (Real.sqrt x))
      (⟨1, 1, 0⟩ : Vec3 ℝ) capsule04 = ⟨11863283 / 16777216, 11863283 / 16777216, 0⟩ := by
    norm_num [Fp.support_Capsule, Fp.resized, Fp.normalized, Fp.norm, Fp.normSq, Fp.dot, Fp.div,
      Fp.projection_onto_plane, Fp.projection_onto, Fp.isCoolinearWith, Fp.cross, Fp.add,
      Fp.sub, Fp.scale, neg, capsule04, round32_zero, round32_one, round32_two, round32_four,
      round32_neg_four, round32_sixteen, round32_thirty_two, round32_sqrt_two,
      round32_half_sqrt_two, round32_inv_sqrt_two]
  refine ⟨?_, by norm_num [capsule04], ?_, ?_, ?_, hres, ?_, ?_⟩
  · intro x hx
    simp only [List.mem_cons, List.mem_singleton, List.not_mem_nil, or_false] at hx
    rcases hx with rfl | rfl | rfl
    · exact round32_zero
    · exact round32_one
    · exact round32_four
  · norm_num [Fp.isCoolinearWith, Fp.cross, Fp.normSq, Fp.dot, Fp.sub, Fp.add, neg, capsule04,
      round32_zero, round32_four, round32_neg_four, round32_sixteen, round32_thirty_two]
  · norm_num [Fp.dot, Fp.sub, Fp.add, neg, capsule04, round32_zero, round32_neg_four]
  · norm_num [Fp.resized, Fp.normalized, Fp.norm, Fp.normSq, Fp.dot, Fp.div,
      Fp.projection_onto_plane, Fp.projection_onto, Fp.add, Fp.sub, Fp.scale, neg, capsule04,
      round32_zero, round32_one, round32_two, round32_neg_four, round32_sixteen,
      round32_sqrt_two, round32_half_sqrt_two, round32_inv_sqrt_two]
  · intro d hd
    rw [hres] at hd
    have hd1 : d = ⟨11863283 / 16777216, 11863283 / 16777216, 0⟩ := by
      cases d
      norm_num [capsule04, add] at hd
      simp only [Vec3.mk.injEq]
      refine ⟨?_, ?_, ?_⟩ <;> linarith [hd.1, hd.2.1, hd.2.2]
    rw [hd1]
    intro hnorm
    unfold Vec3.norm at hnorm
    rw [show (capsule04 : Capsule ℝ).radius = 1 from rfl, Real.sqrt_eq_one] at hnorm
    norm_num [normSq, dot] at hnorm
  · have hns : Fp.normSq round32 (⟨11863283 / 16777216, 11863283 / 16777216, 0⟩ : Vec3 ℝ)
        = 16777215 / 16777216 := by
      norm_num [Fp.normSq, Fp.dot, round32_zero, round32_half_sqrt_two_sq, round32_below_one]
    show round32 (Real.sqrt (Fp.normSq round32 _)) = _
    rw [hns]
    exact round32_sqrt_below_one

/-- C12, amended: in exact real arithmetic, for radius `r ≥ 0` and a direction
not collinear with the axis `a = p0 - p1`, the capsule's support point is the chosen endpoint plus an offset
`d` of norm exactly `r`, perpendicular to the axis, and a non-negative multiple
of the projection of `v` onto the plane orthogonal to `a`. -/
theorem support_Capsule_offset (v : Vec3 ℝ) (s : Capsule ℝ) (hr : 0 ≤ s.radius)
    (hcol : (v.cross ((s.points 0).sub (s.points 1))).normSq ≠ 0) :
    ∃ d : Vec3 ℝ,
      support_Capsule Real.sqrt v s
        = (if v.dot ((s.points 0).sub (s.points 1)) < 0 then s.points 1 else s.points 0).add d ∧
      d.norm Real.sqrt = s.radius ∧
      d.dot ((s.points 0).sub (s.points 1)) = 0 ∧
      ∃ c : ℝ, 0 ≤ c ∧
        d = (v.projection_onto_plane ((s.points 0).sub (s.points 1))).scale c := by
  have hn := normSq_ne_zero_of_cross hcol
  have hw := projection_onto_plane_ne_zeros hcol
  refine ⟨(v.projection_onto_plane ((s.points 0).sub (s.points 1))).resized Real.sqrt s.radius,
    ?_, norm_resized hw hr, ?_, ?_⟩
  · rw [support_Capsule_eq, if_neg hcol]
  · unfold resized
    rw [normalized_of_ne hw, dot_scale_left, dot_scale_left, projection_onto_plane_dot hn]
    ring
  · refine ⟨1 / (v.projection_onto_plane ((s.points 0).sub (s.points 1))).norm Real.sqrt
      * s.radius, mul_nonneg (div_nonneg zero_le_one (zero_le_norm _)) hr, ?_⟩
    unfold resized
    rw [normalized_of_ne hw, scale_scale]

/-- C12, amended, at the capsule with endpoints `(0,0,0)`, `(0,0,4)`, radius `1`
and `v = (1,0,0)`. -/
theorem support_Capsule_offset_witness :
    (0 : ℝ) ≤ (capsule04 : Capsule ℝ).radius ∧
    ((⟨1, 0, 0⟩ : Vec3 ℝ).cross
      (((capsule04 : Capsule ℝ).points 0).sub (capsule04.points 1))).normSq ≠ 0 ∧
    ∃ d : Vec3 ℝ,
      support_Capsule Real.sqrt ⟨1, 0, 0⟩ (capsule04 : Capsule ℝ)
        = (if (⟨1, 0, 0⟩ : Vec3 ℝ).dot
              (((capsule04 : Capsule ℝ).points 0).sub (capsule04.points 1)) < 0
            then (capsule04 : Capsule ℝ).points 1 else (capsule04 : Capsule ℝ).points 0).add d ∧
      d.norm Real.sqrt = (capsule04 : Capsule ℝ).radius ∧
      d.dot (((capsule04 : Capsule ℝ).points 0).sub (capsule04.points 1)) = 0 ∧
      ∃ c : ℝ, 0 ≤ c ∧
        d = ((⟨1, 0, 0⟩ : Vec3 ℝ).projection_onto_plane
              (((capsule04 : Capsule ℝ).points 0).sub (capsule04.points 1))).scale c := by
  have hr : (0 : ℝ) ≤ (capsule04 : Capsule ℝ).radius := by norm_num [capsule04]
  have hcross : ((⟨1, 0, 0⟩ : Vec3 ℝ).cross
      (((capsule04 : Capsule ℝ).points 0).sub (capsule04.points 1))).normSq ≠ 0 := by
    norm_num [capsule04, cross, normSq, dot, sub, add, neg]
  exact ⟨hr, hcross, support_Capsule_offset ⟨1, 0, 0⟩ capsule04 hr hcross⟩

/-- C13, evaluated: on the regular tetrahedron `(1,1,1)`, `(1,-1,-1)`,
`(-1,1,-1)`, `(-1,-1,1)` with `v = (1,-1,0)` the cosine of index `0` is exactly
`0`, so `i_best = 0`, the best cosine is not positive and `normals[0] = (4,4,4)`
is not collinear with `v`: the final branch runs.  It returns
`points[i_best] = (1,1,1)`, which is none of `points[1]`, `points[2]`,
`points[3]`. -/
theorem support_Tetrahedron_final_branch :
    (regularTet : Tetrahedron ℝ).i_best Real.sqrt ⟨1, -1, 0⟩ = 0 ∧
    ¬ ((regularTet : Tetrahedron ℝ).cosines Real.sqrt ⟨1, -1, 0⟩).getD
        ((regularTet : Tetrahedron ℝ).i_best Real.sqrt ⟨1, -1, 0⟩) 0 > 0 ∧
    ((regularTet : Tetrahedron ℝ).normal
      ((regularTet : Tetrahedron ℝ).i_best Real.sqrt ⟨1, -1, 0⟩)).isCoolinearWith ⟨1, -1, 0⟩
        = false ∧
    support_Tetrahedron Real.sqrt ⟨1, -1, 0⟩ (regularTet : Tetrahedron ℝ) = ⟨1, 1, 1⟩ ∧
    (⟨1, 1, 1⟩ : Vec3 ℝ) = (regularTet : Tetrahedron ℝ).points (idx4 0) ∧
    (⟨1, 1, 1⟩ : Vec3 ℝ) ≠ (regularTet : Tetrahedron ℝ).points (idx4 (0 + 1)) ∧
    (⟨1, 1, 1⟩ : Vec3 ℝ) ≠ (regularTet : Tetrahedron ℝ).points (idx4 (0 + 2)) ∧
    (⟨1, 1, 1⟩ : Vec3 ℝ) ≠ (regularTet : Tetrahedron ℝ).points (idx4 (0 + 3)) := by
  have hv : (⟨1, -1, 0⟩ : Vec3 ℝ) ≠ zeros := by simp [zeros]
  have hn0 : ((regularTet : Tetrahedron ℝ).normal 0) ≠ zeros :=
    normal_ne_zeros _ regularTet_isNondegenerate 0 (by norm_num)
  have hc0 : ((⟨1, -1, 0⟩ : Vec3 ℝ).normalized Real.sqrt).dot
      (((regularTet : Tetrahedron ℝ).normal 0).normalized Real.sqrt) = 0 := by
    rw [cos_eq hv hn0, regularTet_normal_zero]
    norm_num [dot]
  have hb : (regularTet : Tetrahedron ℝ).i_best Real.sqrt ⟨1, -1, 0⟩ = 0 := by
    apply i_best_eq_zero
    rw [hc0, toInt_zero]
  have hcol : (((regularTet : Tetrahedron ℝ).normal
      ((regularTet : Tetrahedron ℝ).i_best Real.sqrt ⟨1, -1, 0⟩)).cross ⟨1, -1, 0⟩).normSq
        ≠ 0 := by
    rw [hb, regularTet_normal_zero]
    norm_num [cross, normSq, dot]
  have hres := support_Tetrahedron_of_not_collinear Real.sqrt ⟨1, -1, 0⟩ regularTet hcol
  rw [hb] at hres
  refine ⟨hb, ?_, ?_, ?_, ?_, ?_, ?_, ?_⟩
  · rw [hb, cosines_getD _ _ _ 0 (by norm_num), hc0]
    exact lt_irrefl 0
  · simp [isCoolinearWith, hcol]
  · rw [hres]; simp [regularTet, idx4]
  · simp [regularTet, idx4]
  · norm_num [regularTet, idx4]
  · norm_num [regularTet, idx4]
  · norm_num [regularTet, idx4]

/-- C16: for a non-zero `n`, the projection of `v` onto `n` and its projection
onto the plane orthogonal to `n` add up to `v`, the first is collinear with `n`
and the second is perpendicular to `n`. -/
theorem projection_decomposition (v n : Vec3 K) (hn : n ≠ zeros) :
    (v.projection_onto n).add (v.projection_onto_plane n) = v ∧
    (v.projection_onto n).isCoolinearWith n = true ∧
    (v.projection_onto_plane n).dot n = 0 ∧
    (v.projection_onto_plane n).isPerpendicularWith n = true := by
  have hn' : n.normSq ≠ 0 := fun h => hn ((normSq_eq_zero_iff n).mp h)
  have hperp := projection_onto_plane_dot (v := v) hn'
  refine ⟨?_, ?_, hperp, ?_⟩
  · cases v; cases n
    simp only [projection_onto_plane, projection_onto, add, sub, neg, scale, Vec3.mk.injEq]
    refine ⟨?_, ?_, ?_⟩ <;> ring
  · have h : ((v.projection_onto n).cross n).normSq = 0 := by
      simp only [projection_onto, cross, scale, normSq, dot]
      ring
    simp [isCoolinearWith, h]
  · simp [isPerpendicularWith, hperp]

/-- C16 at `v = (1,2,3)` and `n = (0,0,2)` over the reals. -/
theorem projection_decomposition_witness :
    (⟨0, 0, 2⟩ : Vec3 ℝ) ≠ zeros ∧
    ((⟨1, 2, 3⟩ : Vec3 ℝ).projection_onto ⟨0, 0, 2⟩).add
      ((⟨1, 2, 3⟩ : Vec3 ℝ).projection_onto_plane ⟨0, 0, 2⟩) = ⟨1, 2, 3⟩ ∧
    ((⟨1, 2, 3⟩ : Vec3 ℝ).projection_onto ⟨0, 0, 2⟩).isCoolinearWith ⟨0, 0, 2⟩ = true ∧
    ((⟨1, 2, 3⟩ : Vec3 ℝ).projection_onto_plane ⟨0, 0, 2⟩).dot ⟨0, 0, 2⟩ = 0 ∧
    ((⟨1, 2, 3⟩ : Vec3 ℝ).projection_onto_plane ⟨0, 0, 2⟩).isPerpendicularWith ⟨0, 0, 2⟩
      = true :=
  ⟨by simp [zeros], projection_decomposition ⟨1, 2, 3⟩ ⟨0, 0, 2⟩ (by simp [zeros])⟩

/-- C17, evaluated: on the regular tetrahedron `(1,1,1)`, `(1,-1,-1)`,
`(-1,1,-1)`, `(-1,-1,1)`, which is non-degenerate, with `v = (1,2,3)` the cosine
of index `3` is exactly `0` and those of indices `0`, `1`, `2` are not, so the
first index minimising the absolute value of the cosine is `3`.  Every cosine
lies strictly between `-1` and `1` and the call of `abs` converts it to the
integer `0`, so `std::min_element` stays at `i_best = 0`; the cosine of index `0`
is positive and the code returns `points[0] = (1,1,1)`, not
`points[3] = (-1,-1,1)`. -/
theorem support_Tetrahedron_truncated_cosines :
    (regularTet : Tetrahedron ℝ).IsNondegenerate ∧ (⟨1, 2, 3⟩ : Vec3 ℝ) ≠ zeros ∧
    ((regularTet : Tetrahedron ℝ).cosines Real.sqrt ⟨1, 2, 3⟩).getD 3 0 = 0 ∧
    (∀ j : Nat, j < 3 →
      ((regularTet : Tetrahedron ℝ).cosines Real.sqrt ⟨1, 2, 3⟩).getD j 0 ≠ 0) ∧
    (∀ j : Nat, j < 4 →
      toInt (((regularTet : Tetrahedron ℝ).cosines Real.sqrt ⟨1, 2, 3⟩).getD j 0) = 0) ∧
    (regularTet : Tetrahedron ℝ).i_best Real.sqrt ⟨1, 2, 3⟩ = 0 ∧
    ((regularTet : Tetrahedron ℝ).cosines Real.sqrt ⟨1, 2, 3⟩).getD
        ((regularTet : Tetrahedron ℝ).i_best Real.sqrt ⟨1, 2, 3⟩) 0 > 0 ∧
    support_Tetrahedron Real.sqrt ⟨1, 2, 3⟩ (regularTet : Tetrahedron ℝ) = ⟨1, 1, 1⟩ ∧
    (regularTet : Tetrahedron ℝ).points (idx4 0) = ⟨1, 1, 1⟩ ∧
    (regularTet : Tetrahedron ℝ).points (idx4 3) = ⟨-1, -1, 1⟩ ∧
    support_Tetrahedron Real.sqrt ⟨1, 2, 3⟩ (regularTet : Tetrahedron ℝ)
      ≠ (regularTet : Tetrahedron ℝ).points (idx4 3) := by
  have hv : (⟨1, 2, 3⟩ : Vec3 ℝ) ≠ zeros := by simp [zeros]
  have hn : ∀ j : Nat, j < 4 → (regularTet : Tetrahedron ℝ).normal j ≠ zeros :=
    normal_ne_zeros _ regularTet_isNondegenerate
  have hc3 : ((regularTet : Tetrahedron ℝ).cosines Real.sqrt ⟨1, 2, 3⟩).getD 3 0 = 0 := by
    rw [cosines_getD _ _ _ 3 (by norm_num)]
    apply cos_eq_zero hv (hn 3 (by norm_num))
    rw [regularTet_normal_three]
    norm_num [dot]
  have hne : ∀ j : Nat, j < 3 →
      ((regularTet : Tetrahedron ℝ).cosines Real.sqrt ⟨1, 2, 3⟩).getD j 0 ≠ 0 := by
    intro j hj
    rw [cosines_getD _ _ _ j (by omega)]
    apply cos_ne_zero hv (hn j (by omega))
    interval_cases j
    · rw [regularTet_normal_zero]; norm_num [dot]
    · rw [regularTet_normal_one]; norm_num [dot]
    · rw [regularTet_normal_two]; norm_num [dot]
  have hint : ∀ j : Nat, j < 4 →
      toInt (((regularTet : Tetrahedron ℝ).cosines Real.sqrt ⟨1, 2, 3⟩).getD j 0) = 0 := by
    intro j hj
    rw [cosines_getD _ _ _ j hj]
    apply toInt_eq_zero
    apply abs_cos_lt_one hv (hn j hj)
    interval_cases j
    · rw [regularTet_normal_zero]; norm_num [cross, normSq, dot]
    · rw [regularTet_normal_one]; norm_num [cross, normSq, dot]
    · rw [regularTet_normal_two]; norm_num [cross, normSq, dot]
    · rw [regularTet_normal_three]; norm_num [cross, normSq, dot]
  have hb : (regularTet : Tetrahedron ℝ).i_best Real.sqrt ⟨1, 2, 3⟩ = 0 := by
    apply i_best_eq_zero
    rw [← cosines_getD _ _ _ 0 (by norm_num)]
    exact hint 0 (by norm_num)
  have hpos : ((regularTet : Tetrahedron ℝ).cosines Real.sqrt ⟨1, 2, 3⟩).getD
      ((regularTet : Tetrahedron ℝ).i_best Real.sqrt ⟨1, 2, 3⟩) 0 > 0 := by
    rw [hb, cosines_getD _ _ _ 0 (by norm_num)]
    apply cos_pos hv (hn 0 (by norm_num))
    rw [regularTet_normal_zero]
    norm_num [dot]
  have hres := support_Tetrahedron_of_pos Real.sqrt ⟨1, 2, 3⟩ regularTet hpos
  rw [hb] at hres
  have hp0 : (regularTet : Tetrahedron ℝ).points (idx4 0) = ⟨1, 1, 1⟩ := by
    simp [regularTet, idx4]
  have hp3 : (regularTet : Tetrahedron ℝ).points (idx4 3) = ⟨-1, -1, 1⟩ := by
    simp [regularTet, idx4]
  refine ⟨regularTet_isNondegenerate, hv, hc3, hne, hint, hb, hpos, ?_, hp0, hp3, ?_⟩
  · rw [hres, hp0]
  · rw [hres, hp0, hp3]
    norm_num

end Shapes

/-! ## Proofs on `fast_erase` -/

namespace FastRemove

theorem eraseIdx_set_same {α : Type} (l : List α) (k : Nat) (a : α) :
    (l.set k a).eraseIdx k = l.eraseIdx k := by
  induction l generalizing k with
  | nil => simp
  | cons b t ih =>
    cases k with
    | zero => simp
    | succ k => simp [ih]

/-- The last element moved to the front of the others is a rearrangement. -/
theorem cons_eraseIdx_last_perm {α : Type} (t : List α) (y : α) (h : t.getLast? = some y) :
    (y :: t.eraseIdx (t.length - 1)).Perm t := by
  induction t with
  | nil => simp at h
  | cons b t ih =>
    cases t with
    | nil =>
      simp at h
      simp [h]
    | cons c t' =>
      have h' : (c :: t').getLast? = some y := by simpa using h
      have := ih h'
      simp only [List.length_cons, Nat.add_sub_cancel] at this ⊢
      simp only [List.eraseIdx_cons_succ]
      exact (List.Perm.swap b y _).trans (List.Perm.cons b this)

theorem swap_erase_perm {α : Type} (l : List α) (i : Nat) (x y : α) (hx : l[i]? = some x)
    (hy : l.getLast? = some y) :
    (((l.set i y).set (l.length - 1) x).eraseIdx (l.length - 1)).Perm (l.eraseIdx i) := by
  rw [eraseIdx_set_same]
  induction l generalizing i with
  | nil => simp at hx
  | cons a t ih =>
    cases t with
    | nil =>
      cases i with
      | zero => simp
      | succ k => simp at hx
    | cons b t' =>
      have hy' : (b :: t').getLast? = some y := by simpa using hy
      cases i with
      | zero =>
        simp only [List.set_cons_zero, List.length_cons, Nat.add_sub_cancel,
          List.eraseIdx_cons_succ, List.eraseIdx_cons_zero]
        have := cons_eraseIdx_last_perm (b :: t') y hy'
        simpa using this
      | succ k =>
        have hx' : (b :: t')[k]? = some x := by simpa using hx
        have := ih k hx' hy'
        simp only [List.set_cons_succ, List.length_cons, Nat.add_sub_cancel,
          List.eraseIdx_cons_succ] at this ⊢
        exact List.Perm.cons a this

/-- C18: on a container of length `n` and a valid position `i < n`, `fast_erase`
leaves a container of length `n - 1` in which every position `j < n - 1` other
than `i` holds its original element and position `i` (when `i < n - 1`) holds
the element that was last; the result is a rearrangement of the original
contents with the element at position `i` removed. -/
theorem fast_erase_spec {α : Type} (container : List α) (i : Nat)
    (hi : i < container.length) :
    ∃ r : List α, fast_erase container i = some r ∧
      r.length = container.length - 1 ∧
      (∀ j : Nat, j < container.length - 1 → j ≠ i → r[j]? = container[j]?) ∧
      (i < container.length - 1 → r[i]? = container[container.length - 1]?) ∧
      r.Perm (container.eraseIdx i) := by
  have hne : container.length ≠ 0 := by omega
  have hlast : container.length - 1 < container.length := by omega
  have hx : container[i]? = some container[i] := List.getElem?_eq_getElem hi
  have hy : container[container.length - 1]? = some container[container.length - 1] :=
    List.getElem?_eq_getElem hlast
  have hy' : container.getLast? = some container[container.length - 1] := by
    rw [List.getLast?_eq_getElem?, hy]
  refine ⟨((container.set i container[container.length - 1]).set (container.length - 1)
    container[i]).eraseIdx (container.length - 1), ?_, ?_, ?_, ?_, ?_⟩
  · simp only [fast_erase, hne, if_false, swap_at, hx, hy, Option.map_some']
  · rw [List.length_eraseIdx_of_lt (by simpa using hlast)]
    simp
  · intro j hj hji
    rw [List.getElem?_eraseIdx_of_lt _ _ _ hj, List.getElem?_set, if_neg (by omega),
      List.getElem?_set, if_neg (fun h => hji h.symm)]
  · intro hlt
    rw [List.getElem?_eraseIdx_of_lt _ _ _ hlt, List.getElem?_set, if_neg (by omega),
      List.getElem?_set, if_pos rfl]
    simp [hi, hy]
  · exact swap_erase_perm container i _ _ hx hy'

/-- C18 on the container `[10, 20, 30, 40]` and position `1`: the result is
`[10, 40, 30]`. -/
theorem fast_erase_spec_witness :
    1 < [10, 20, 30, 40].length ∧
    fast_erase [10, 20, 30, 40] 1 = some [10, 40, 30] ∧
    ∃ r : List Nat, fast_erase [10, 20, 30, 40] 1 = some r ∧
      r.length = [10, 20, 30, 40].length - 1 ∧
      (∀ j : Nat, j < [10, 20, 30, 40].length - 1 → j ≠ 1 → r[j]? = [10, 20, 30, 40][j]?) ∧
      (1 < [10, 20, 30, 40].length - 1 →
        r[1]? = [10, 20, 30, 40][[10, 20, 30, 40].length - 1]?) ∧
      r.Perm ([10, 20, 30, 40].eraseIdx 1) :=
  ⟨by decide, by decide, fast_erase_spec [10, 20, 30, 40] 1 (by decide)⟩

end FastRemove

/-! ## Proofs on the run-length code -/

namespace StringCompr

theorem charAt_eq (text : List Char) (i : Nat) :
    charAt text i = (text ++ [NUL]).getD i NUL := by
  unfold charAt
  rcases Nat.lt_or_ge i text.length with h | h
  · rw [List.getD_eq_getElem _ _ h, List.getD_eq_getElem _ _ (by simp; omega),
      List.getElem_append_left h]
  · rw [List.getD_eq_default _ _ h]
    rcases Nat.eq_or_lt_of_le h with h' | h'
    · rw [List.getD_eq_getElem _ _ (by simp; omega)]
      simp [← h']
    · rw [List.getD_eq_default _ _ (by simp; omega)]

/-- A loop over the positions `k, ..., k + m - 1` of an array is a fold over
that part of the array. -/
theorem foldlM_range'_getD {σ : Type} (f : σ → Char → Option σ) (ext : List Char) (d : Char) :
    ∀ (m k : Nat) (st : σ), k + m ≤ ext.length →
      (List.range' k m).foldlM (fun st i => f st (ext.getD i d)) st
        = ((ext.drop k).take m).foldlM f st
  | 0, _, _, _ => by simp
  | m + 1, k, st, h => by
    have hk : k < ext.length := by omega
    rw [List.range'_succ, List.foldlM_cons, List.drop_eq_getElem_cons hk, List.take_succ_cons,
      List.foldlM_cons, List.getD_eq_getElem _ _ hk]
    congr 1
    funext st1
    exact foldlM_range'_getD f ext d m (k + 1) st1 (by omega)

theorem get_number_of_cons_substrings_eq (text : List Char) :
    get_number_of_cons_substrings text
      = ((text ++ [NUL]).tail.foldlM runStep ⟨[], charAt text 0, 1⟩).map fun st => st.counts := by
  unfold get_number_of_cons_substrings
  have h := foldlM_range'_getD runStep (text ++ [NUL]) NUL text.length 1
    ⟨[], charAt text 0, 1⟩ (by simp; omega)
  simp only [← charAt_eq] at h
  rw [h, List.take_of_length_le (by simp), List.drop_one]

/-- The first run that `runsFrom` returns is the run of `last`, and it has at
least the `n` characters met so far. -/
theorem runsFrom_head (body : List Char) :
    ∀ (last : Char) (n : Nat), ∃ m rest, runsFrom last n body = (last, m) :: rest ∧ n ≤ m := by
  induction body with
  | nil => intro last n; exact ⟨n, [], rfl, le_refl n⟩
  | cons ch body ih =>
    intro last n
    unfold runsFrom
    split_ifs with h
    · obtain ⟨m, rest, hr, hm⟩ := ih last (n + 1)
      exact ⟨m, rest, hr, by omega⟩
    · exact ⟨n, _, rfl, le_refl n⟩

/-- The loop of `get_number_of_cons_substrings` on a string without `'\0'`
whose runs all fit the `int` counter: the counter never overflows and the runs
are appended to `counts`. -/
theorem foldlM_runStep (body : List Char) :
    ∀ (counts : CharCountVector) (last : Char) (n : Nat), NUL ∉ body → last ≠ NUL →
      (∀ pair ∈ runsFrom last n body, pair.2 ≤ INT_MAX) →
      (body ++ [NUL]).foldlM runStep ⟨counts, last, n⟩
        = some ⟨counts ++ runsFrom last n body, NUL, 1⟩ := by
  induction body with
  | nil =>
    intro counts last n _ hl _
    simp [runStep, runsFrom, Ne.symm hl]
  | cons ch body ih =>
    intro counts last n hb hl hbound
    have hch : ch ≠ NUL := fun h => hb (by simp [h])
    have hb1 : NUL ∉ body := fun h => hb (List.mem_cons_of_mem _ h)
    rw [List.cons_append, List.foldlM_cons]
    by_cases h : ch = last
    · subst h
      have hrun : runsFrom ch n (ch :: body) = runsFrom ch (n + 1) body := by
        simp [runsFrom]
      rw [hrun] at hbound ⊢
      obtain ⟨m, rest, hr, hm⟩ := runsFrom_head body ch (n + 1)
      have hlt : n < INT_MAX := by
        have hle := hbound (ch, m) (by rw [hr]; simp)
        simp only at hle
        omega
      simp only [runStep, ne_eq, not_true_eq_false, if_false, hlt, if_true]
      exact ih counts ch (n + 1) hb1 hl hbound
    · have hrun : runsFrom last n (ch :: body) = (last, n) :: runsFrom ch 1 body := by
        simp [runsFrom, h]
      rw [hrun] at hbound ⊢
      simp only [runStep, ne_eq, h, not_false_eq_true, if_true]
      have := ih (counts ++ [(last, n)]) ch 1 hb1 hch
        (fun pair hp => hbound pair (List.mem_cons_of_mem _ hp))
      simpa using this

/-- A run of more than `INT_MAX` equal characters overflows the counter. -/
theorem foldlM_runStep_overflow (rest : List Char) (last : Char) :
    ∀ (k : Nat) (counts : CharCountVector) (n : Nat), n ≤ INT_MAX → INT_MAX < n + k →
      (List.replicate k last ++ rest).foldlM runStep ⟨counts, last, n⟩ = none
  | 0, _, n, h1, h2 => by omega
  | k + 1, counts, n, h1, h2 => by
    rw [List.replicate_succ, List.cons_append, List.foldlM_cons]
    by_cases hn : n < INT_MAX
    · simp only [runStep, ne_eq, not_true_eq_false, if_false, hn, if_true]
      exact foldlM_runStep_overflow rest last k counts (n + 1) (by omega) (by omega)
    · simp [runStep, hn]

/-- On a string of more than `INT_MAX` equal characters the function has no
defined result. -/
theorem get_number_of_cons_substrings_replicate (ch : Char) (k : Nat) (hk : INT_MAX < k) :
    get_number_of_cons_substrings (List.replicate k ch) = none := by
  obtain ⟨j, rfl⟩ : ∃ j, k = j + 1 := ⟨k - 1, by unfold INT_MAX at hk; omega⟩
  rw [get_number_of_cons_substrings_eq, List.replicate_succ]
  have h0 : charAt (ch :: List.replicate j ch) 0 = ch := rfl
  rw [h0, List.cons_append, List.tail_cons,
    foldlM_runStep_overflow [NUL] ch j [] 1 (by unfold INT_MAX; norm_num) (by omega)]
  rfl

/-- On a non-empty string without `'\0'` whose runs fit the counter the
function returns the maximal runs. -/
theorem get_number_of_cons_substrings_cons (c0 : Char) (t : List Char)
    (h : NUL ∉ c0 :: t) (hbound : ∀ pair ∈ runs (c0 :: t), pair.2 < 2 ^ 31) :
    get_number_of_cons_substrings (c0 :: t) = some (runs (c0 :: t)) := by
  have h0 : c0 ≠ NUL := fun e => h (by simp [e])
  have ht : NUL ∉ t := fun e => h (List.mem_cons_of_mem _ e)
  rw [get_number_of_cons_substrings_eq]
  have : charAt (c0 :: t) 0 = c0 := rfl
  rw [this, List.cons_append, List.tail_cons, foldlM_runStep t [] c0 1 ht h0]
  · simp [runs]
  · intro pair hp
    have := hbound pair hp
    unfold INT_MAX
    omega

theorem expand_cons (pair : CharCount) (rest : CharCountVector) :
    expand (pair :: rest) = List.replicate pair.2 pair.1 ++ expand rest := by
  simp [expand]

theorem expand_runsFrom (body : List Char) :
    ∀ (last : Char) (n : Nat), expand (runsFrom last n body) = List.replicate n last ++ body := by
  induction body with
  | nil => intro last n; simp [runsFrom, expand]
  | cons ch body ih =>
    intro last n
    unfold runsFrom
    split_ifs with h
    · subst h
      rw [ih, List.replicate_succ', List.append_assoc]
      rfl
    · rw [expand_cons, ih]
      simp

theorem runsFrom_count_pos (body : List Char) :
    ∀ (last : Char) (n : Nat), 1 ≤ n → ∀ pair ∈ runsFrom last n body, 1 ≤ pair.2 := by
  induction body with
  | nil =>
    intro last n hn pair hp
    simp only [runsFrom, List.mem_singleton] at hp
    subst hp
    exact hn
  | cons ch body ih =>
    intro last n hn pair hp
    unfold runsFrom at hp
    split_ifs at hp with h
    · exact ih last (n + 1) (by omega) pair hp
    · rcases List.mem_cons.mp hp with h1 | h1
      · subst h1; exact hn
      · exact ih ch 1 (le_refl 1) pair h1

theorem runsFrom_char_mem (body : List Char) :
    ∀ (last : Char) (n : Nat), ∀ pair ∈ runsFrom last n body, pair.1 ∈ last :: body := by
  induction body with
  | nil =>
    intro last n pair hp
    simp only [runsFrom, List.mem_singleton] at hp
    subst hp
    simp
  | cons ch body ih =>
    intro last n pair hp
    unfold runsFrom at hp
    split_ifs at hp with h
    · have := ih last (n + 1) pair hp
      rcases List.mem_cons.mp this with h1 | h1
      · simp [h1]
      · exact List.mem_cons_of_mem _ (List.mem_cons_of_mem _ h1)
    · rcases List.mem_cons.mp hp with h1 | h1
      · subst h1; simp
      · exact List.mem_cons_of_mem _ (ih ch 1 pair h1)

/-- Adjacent runs carry different characters. -/
theorem runsFrom_chain (body : List Char) :
    ∀ (last : Char) (n : Nat),
      List.Chain' (fun p q : CharCount => p.1 ≠ q.1) (runsFrom last n body) := by
  induction body with
  | nil => intro last n; simp [runsFrom]
  | cons ch body ih =>
    intro last n
    unfold runsFrom
    split_ifs with h
    · exact ih last (n + 1)
    · obtain ⟨m, rest, hr, _⟩ := runsFrom_head body ch 1
      have hc := ih ch 1
      rw [hr] at hc ⊢
      exact List.Chain'.cons (fun e => h e.symm) hc

theorem digitChar_toNat (d : Nat) (h : d < 10) : (digitChar d).toNat = 48 + d := by
  interval_cases d <;> rfl

theorem isdigit_digitChar (d : Nat) (h : d < 10) : isdigit (digitChar d) = true := by
  simp [isdigit, digitChar_toNat d h]
  omega

theorem to_string_ne_nil (n : Nat) : to_string n ≠ [] := by
  rw [to_string]
  split_ifs <;> simp

theorem to_string_isdigit : ∀ (n : Nat), ∀ ch ∈ to_string n, isdigit ch = true := by
  intro n
  induction n using Nat.strong_induction_on with
  | _ n ih =>
    intro ch hch
    rw [to_string] at hch
    split_ifs at hch with h
    · simp only [List.mem_singleton] at hch
      subst hch
      exact isdigit_digitChar n h
    · rcases List.mem_append.mp hch with h1 | h1
      · exact ih (n / 10) (by omega) ch h1
      · simp only [List.mem_singleton] at h1
        subst h1
        exact isdigit_digitChar _ (Nat.mod_lt _ (by decide))

theorem digitsValue_append (digits : List Char) (d : Char) :
    digitsValue (digits ++ [d]) = digitsValue digits * 10 + (d.toNat - 48) := by
  simp [digitsValue, List.foldl_append]

/-- Reading back the decimal representation gives the number. -/
theorem digitsValue_to_string : ∀ n : Nat, digitsValue (to_string n) = n := by
  intro n
  induction n using Nat.strong_induction_on with
  | _ n ih =>
    rw [to_string]
    split_ifs with h
    · simp [digitsValue, digitChar_toNat n h]
    · rw [digitsValue_append, ih (n / 10) (by omega),
        digitChar_toNat _ (Nat.mod_lt _ (by decide))]
      omega

/-- The digit count of `numDigits` is the length of the decimal representation
for every number but `0`, where `numDigits` gives `0`. -/
theorem numDigits_eq : ∀ n : Nat, 1 ≤ n → numDigits n = (to_string n).length := by
  intro n
  induction n using Nat.strong_induction_on with
  | _ n ih =>
    intro hn
    obtain ⟨k, rfl⟩ : ∃ k, n = k + 1 := ⟨n - 1, by omega⟩
    rw [numDigits, to_string]
    split_ifs with h
    · have : (k + 1) / 10 = 0 := by omega
      rw [this]
      simp [numDigits]
    · rw [ih ((k + 1) / 10) (by omega) (by omega)]
      simp

theorem foldl_append_flatMap {α β : Type} (f : α → List β) (l : List α) :
    ∀ init : List β, l.foldl (fun acc a => acc ++ f a) init = init ++ l.flatMap f := by
  induction l with
  | nil => intro init; simp
  | cons a l ih => intro init; simp [ih]

theorem encrypt_string_eq (text : List Char) (h : text ≠ []) :
    encrypt_string text = (get_number_of_cons_substrings text).map encode := by
  simp only [encrypt_string, h, if_false]
  congr 1
  funext char_counts
  rw [foldl_append_flatMap]
  simp [encode]

theorem get_encrypt_size_eq (char_counts : CharCountVector)
    (h : ∀ pair ∈ char_counts, 1 ≤ pair.2) :
    get_encrypt_size char_counts = (encode char_counts).length := by
  have key : ∀ (l : CharCountVector), (∀ pair ∈ l, 1 ≤ pair.2) → ∀ init : Nat,
      l.foldl (fun last pair => last + 1 + numDigits pair.2) init
        = init + (encode l).length := by
    intro l
    induction l with
    | nil => intro _ init; simp [encode]
    | cons a l ih =>
      intro hl init
      rw [List.foldl_cons, ih (fun p hp => hl p (List.mem_cons_of_mem _ hp)),
        numDigits_eq a.2 (hl a (List.mem_cons_self _ _))]
      simp [encode]
      omega
  rw [get_encrypt_size, key char_counts h 0, Nat.zero_add]

theorem takeWhile_append_stop {α : Type} (p : α → Bool) (l : List α) (x : α) (r : List α)
    (hl : ∀ a ∈ l, p a = true) (hx : p x = false) :
    (l ++ x :: r).takeWhile p = l ∧ (l ++ x :: r).dropWhile p = x :: r := by
  induction l with
  | nil => simp [List.takeWhile, List.dropWhile, hx]
  | cons a l ih =>
    have ha := hl a (List.mem_cons_self _ _)
    obtain ⟨h1, h2⟩ := ih (fun b hb => hl b (List.mem_cons_of_mem _ hb))
    simp [List.takeWhile, List.dropWhile, ha, h1, h2]

theorem sentry_ready (ch : Char) (r : List Char) (h : isspace ch = false) :
    sentry ⟨ch :: r, false, false⟩ = (⟨ch :: r, false, false⟩, true) := by
  simp [sentry, List.dropWhile, h]

theorem isdigit_not_isspace (ch : Char) (h : isdigit ch = true) : isspace ch = false := by
  simp only [isdigit, decide_eq_true_eq] at h
  simp only [isspace, decide_eq_false_iff_not]
  omega

theorem isdigit_not_sign (ch : Char) (h : isdigit ch = true) :
    ¬ (ch.toNat = 45 ∨ ch.toNat = 43) := by
  simp only [isdigit, decide_eq_true_eq] at h
  omega

/-- Reading a count from a decimal representation followed by a character that
is not a digit gives the number and stops in front of that character. -/
theorem readCount_to_string (n : Nat) (ch : Char) (r : List Char) (hch : isdigit ch = false)
    (hn : n < 2 ^ 64) :
    readCount ⟨to_string n ++ ch :: r, false, false⟩ = (⟨ch :: r, false, false⟩, n) := by
  obtain ⟨d0, ds, hds⟩ : ∃ d0 ds, to_string n = d0 :: ds := by
    cases h : to_string n with
    | nil => exact absurd h (to_string_ne_nil n)
    | cons d0 ds => exact ⟨d0, ds, rfl⟩
  have hd0 : isdigit d0 = true := to_string_isdigit n d0 (by rw [hds]; simp)
  obtain ⟨ht, hdrop⟩ := takeWhile_append_stop isdigit (to_string n) ch r
    (to_string_isdigit n) hch
  have hs : sentry ⟨to_string n ++ ch :: r, false, false⟩
      = (⟨to_string n ++ ch :: r, false, false⟩, true) := by
    rw [hds, List.cons_append]
    exact sentry_ready d0 _ (isdigit_not_isspace d0 hd0)
  have hsign : ¬ (d0.toNat = 45 ∨ d0.toNat = 43) := isdigit_not_sign d0 hd0
  have h45 : ¬ d0.toNat = 45 := fun h => hsign (Or.inl h)
  have h43 : ¬ d0.toNat = 43 := fun h => hsign (Or.inr h)
  unfold readCount
  rw [hs]
  rw [hds, List.cons_append] at ht hdrop
  simp only [hds, List.cons_append, h45, h43, or_self, decide_False, Bool.false_eq_true,
    if_false, ht, hdrop]
  rw [if_neg (by simp), ← hds, digitsValue_to_string, if_neg (by omega)]
  rfl

theorem readChar_ready (ch : Char) (r : List Char) (h : isspace ch = false) :
    readChar ⟨ch :: r, false, false⟩ = (⟨r, false, false⟩, ch) := by
  unfold readChar
  rw [sentry_ready ch r h]

theorem encode_cons (pair : CharCount) (rest : CharCountVector) :
    encode (pair :: rest) = to_string pair.2 ++ pair.1 :: encode rest := by
  simp [encode]

/-- The parsing loop of `decrypt_string` recovers the runs from their code, when
no run character is a digit or whitespace and every count is a `size_t`. -/
theorem parseLoop_encode (char_counts : CharCountVector) :
    (∀ pair ∈ char_counts, isdigit pair.1 = false ∧ isspace pair.1 = false ∧ pair.2 < 2 ^ 64) →
    ∀ (fuel : Nat) (acc : CharCountVector), char_counts.length < fuel →
      parseLoop fuel ⟨encode char_counts, false, false⟩ acc = some (acc ++ char_counts) := by
  induction char_counts with
  | nil =>
    intro _ fuel acc hf
    obtain ⟨k, rfl⟩ : ∃ k, fuel = k + 1 := ⟨fuel - 1, by simp at hf; omega⟩
    simp [parseLoop, encode, readCount, readChar, sentry]
  | cons pair rest ih =>
    intro h fuel acc hf
    obtain ⟨k, rfl⟩ : ∃ k, fuel = k + 1 := ⟨fuel - 1, by simp at hf; omega⟩
    obtain ⟨hd, hsp, hlt⟩ := h pair (List.mem_cons_self _ _)
    rw [parseLoop, encode_cons, readCount_to_string _ _ _ hd hlt]
    simp only [readChar_ready _ _ hsp, Bool.false_eq_true, if_false]
    rw [ih (fun p hp => h p (List.mem_cons_of_mem _ hp)) k _ (by simp at hf; omega)]
    simp

theorem length_le_length_encode (char_counts : CharCountVector) :
    char_counts.length ≤ (encode char_counts).length := by
  induction char_counts with
  | nil => simp
  | cons pair rest ih =>
    rw [encode_cons]
    simp
    omega

/-- Without a wrap of the `size_t` sum, `get_decrypt_size` is the length of the
string the runs stand for. -/
theorem get_decrypt_size_eq (char_counts : CharCountVector)
    (h : (expand char_counts).length < 2 ^ 64) :
    get_decrypt_size char_counts = (expand char_counts).length := by
  have key : ∀ (l : CharCountVector) (init : Nat), init + (expand l).length < 2 ^ 64 →
      l.foldl (fun last pair => (last + pair.2) % 2 ^ 64) init = init + (expand l).length := by
    intro l
    induction l with
    | nil => intro init _; simp [expand]
    | cons a l ih =>
      intro init hlt
      rw [expand_cons, List.length_append, List.length_replicate] at hlt ⊢
      rw [List.foldl_cons, Nat.mod_eq_of_lt (by omega), ih (init + a.2) (by omega)]
      omega
  rw [get_decrypt_size, key char_counts 0 (by omega), Nat.zero_add]

/-- Every count is at most the length of the string the runs stand for. -/
theorem count_le_length_expand (char_counts : CharCountVector) :
    ∀ pair ∈ char_counts, pair.2 ≤ (expand char_counts).length := by
  induction char_counts with
  | nil => intro pair hp; simp at hp
  | cons a l ih =>
    intro pair hp
    rw [expand_cons, List.length_append, List.length_replicate]
    rcases List.mem_cons.mp hp with h1 | h1
    · subst h1; omega
    · have := ih pair h1
      omega

/-- Filling `k` positions behind the part `done` of a buffer whose rest is still
`'\0'`. -/
theorem fill_append_replicate (value : Char) :
    ∀ (k : Nat) (done : List Char) (m : Nat), k ≤ m →
      fill (done ++ List.replicate m NUL) done.length (done.length + k) value
        = (done ++ List.replicate k value) ++ List.replicate (m - k) NUL := by
  have key : ∀ (k : Nat) (done : List Char) (m : Nat), k ≤ m →
      (List.range' done.length k).foldl (fun buffer i => buffer.set i value)
          (done ++ List.replicate m NUL)
        = (done ++ List.replicate k value) ++ List.replicate (m - k) NUL := by
    intro k
    induction k with
    | zero => intro done m _; simp
    | succ k ih =>
      intro done m hk
      obtain ⟨m1, rfl⟩ : ∃ m1, m = m1 + 1 := ⟨m - 1, by omega⟩
      rw [List.range'_succ, List.foldl_cons]
      have hset : (done ++ List.replicate (m1 + 1) NUL).set done.length value
          = (done ++ [value]) ++ List.replicate m1 NUL := by
        rw [List.replicate_succ, List.set_append_right _ _ (le_refl _)]
        simp
      have hlen : done.length + 1 = (done ++ [value]).length := by simp
      rw [hset, hlen, ih (done ++ [value]) m1 (by omega)]
      simp [List.replicate_succ]
  intro k done m hk
  unfold fill
  rw [Nat.add_sub_cancel_left]
  exact key k done m hk

/-- The filling loop of `decrypt_string` on a buffer of the right size writes
the string the runs stand for. -/
theorem fillLoop_expand (char_counts : CharCountVector) :
    ∀ (done : List Char) (m : Nat), (expand char_counts).length = m →
      fillLoop (done ++ List.replicate m NUL) done.length char_counts
        = some (done ++ expand char_counts) := by
  induction char_counts with
  | nil =>
    intro done m hm
    simp only [expand, List.flatMap_nil, List.length_nil] at hm
    subst hm
    simp [fillLoop, expand]
  | cons a l ih =>
    intro done m hm
    obtain ⟨character, count⟩ := a
    rw [expand_cons, List.length_append, List.length_replicate] at hm
    simp only at hm
    have hk : count ≤ m := by omega
    rw [fillLoop, if_pos (by simp; omega), fill_append_replicate character count done m hk]
    have hlen : done.length + count = (done ++ List.replicate count character).length := by simp
    rw [hlen, ih (done ++ List.replicate count character) (m - count) (by omega), expand_cons]
    simp

/-- Decoding the code of a non-empty list of runs gives the string the runs
stand for, when that string has a length that fits a `size_t`. -/
theorem decrypt_string_encode (char_counts : CharCountVector) (hne : char_counts ≠ [])
    (h : ∀ pair ∈ char_counts, isdigit pair.1 = false ∧ isspace pair.1 = false)
    (hsize : (expand char_counts).length < 2 ^ 64) :
    decrypt_string (encode char_counts) = some (expand char_counts) := by
  have hen : encode char_counts ≠ [] := by
    cases char_counts with
    | nil => exact absurd rfl hne
    | cons pair rest => rw [encode_cons]; simp
  have hall : ∀ pair ∈ char_counts,
      isdigit pair.1 = false ∧ isspace pair.1 = false ∧ pair.2 < 2 ^ 64 := by
    intro pair hp
    have := count_le_length_expand char_counts pair hp
    exact ⟨(h pair hp).1, (h pair hp).2, by omega⟩
  unfold decrypt_string
  rw [if_neg hen, parseLoop_encode char_counts hall _ []
    (Nat.lt_succ_of_le (length_le_length_encode char_counts))]
  simp only [List.nil_append, Option.some_bind, get_decrypt_size_eq char_counts hsize]
  have := fillLoop_expand char_counts [] (expand char_counts).length rfl
  simpa using this

theorem islower_facts (ch : Char) (h : islower ch) :
    isdigit ch = false ∧ isspace ch = false ∧ ch ≠ NUL := by
  obtain ⟨h1, h2⟩ := h
  refine ⟨?_, ?_, ?_⟩
  · simp only [isdigit, decide_eq_false_iff_not]; omega
  · simp only [isspace, decide_eq_false_iff_not]; omega
  · rintro rfl
    have : NUL.toNat = 0 := rfl
    omega

theorem length_dropWhile_le_length {α : Type} (p : α → Bool) (l : List α) :
    (l.dropWhile p).length ≤ l.length := by
  induction l with
  | nil => simp
  | cons a l ih =>
    rw [List.dropWhile_cons]
    split_ifs
    · exact le_trans ih (Nat.le_succ _)
    · exact le_refl _

theorem sentry_length (ss : IStream) : (sentry ss).1.rest.length ≤ ss.rest.length := by
  unfold sentry
  split_ifs
  · exact le_refl _
  · have h := length_dropWhile_le_length isspace ss.rest
    split
    · simp
    · rename_i ch r heq
      rw [heq] at h
      exact h

theorem readCount_length (ss : IStream) : (readCount ss).1.rest.length ≤ ss.rest.length := by
  have hs := sentry_length ss
  unfold readCount
  rcases hsen : sentry ss with ⟨ss1, ok⟩
  rw [hsen] at hs
  cases ok with
  | false => exact hs
  | true =>
    simp only
    have hd : ∀ l : List Char, (l.dropWhile isdigit).length ≤ l.length :=
      length_dropWhile_le_length isdigit
    have ht : ss1.rest.tail.length ≤ ss1.rest.length := by simp
    split_ifs <;> simp only <;>
      first
        | exact le_trans (hd _) (le_trans ht hs)
        | exact le_trans (hd _) hs

/-- A successful `ss >> character` consumes at least one character. -/
theorem readChar_length (ss : IStream) (h : (readChar ss).1.fail = false) :
    (readChar ss).1.rest.length < ss.rest.length := by
  have hs := sentry_length ss
  unfold readChar at h ⊢
  rcases hsen : sentry ss with ⟨ss1, ok⟩
  rw [hsen] at hs h
  cases ok with
  | false =>
    have : ss1.fail = true := by
      have h2 := hsen
      unfold sentry at h2
      split_ifs at h2
      · cases h2; rfl
      · split at h2
        · cases h2; rfl
        · cases h2
    simp only at h
    rw [this] at h
    exact absurd h (by simp)
  | true =>
    simp only at h ⊢
    cases hr : ss1.rest with
    | nil => rw [hr] at h; simp at h
    | cons ch r =>
      rw [hr] at hs
      simp only [List.length_cons] at hs ⊢
      omega

/-- The parsing loop never uses up a fuel above the length of the input: more
fuel gives the same result, so `none` always stands for a loop that never ends. -/
theorem parseLoop_fuel : ∀ (fuel : Nat) (ss : IStream) (acc : CharCountVector),
    ss.rest.length < fuel → parseLoop (fuel + 1) ss acc = parseLoop fuel ss acc
  | 0, _, _, h => absurd h (Nat.not_lt_zero _)
  | k + 1, ss, acc, h => by
    rw [parseLoop, parseLoop]
    simp only
    split_ifs with he hf
    · rfl
    · rfl
    · have hf' : (readChar (readCount ss).1).1.fail = false := by simpa using hf
      have h1 := readChar_length (readCount ss).1 hf'
      have h2 := readCount_length ss
      exact parseLoop_fuel k _ _ (by omega)

/-- C19, refuted as stated: the string of `2 ^ 31` characters `a` is not empty
and holds no `'\0'`, yet the `int` counter overflows when it meets the last
`a`: the function has no defined result, and neither has `encrypt_string`. -/
theorem get_number_of_cons_substrings_overflow :
    List.replicate (2 ^ 31) 'a' ≠ [] ∧ NUL ∉ List.replicate (2 ^ 31) 'a' ∧
    get_number_of_cons_substrings (List.replicate (2 ^ 31) 'a') = none ∧
    encrypt_string (List.replicate (2 ^ 31) 'a') = none := by
  have hne : List.replicate (2 ^ 31) 'a' ≠ [] := by
    intro h
    have := congrArg List.length h
    rw [List.length_replicate] at this
    exact absurd this (by norm_num)
  have hnone := get_number_of_cons_substrings_replicate 'a' (2 ^ 31)
    (by unfold INT_MAX; norm_num)
  refine ⟨hne, ?_, hnone, ?_⟩
  · intro h
    exact absurd (List.eq_of_mem_replicate h) (by decide)
  · rw [encrypt_string_eq _ hne, hnone]
    rfl

/-- C19, amended: on a non-empty string without `'\0'` in which every maximal
run is shorter than `2 ^ 31` characters, `get_number_of_cons_substrings` returns
the maximal runs in order (every count is at least `1`, adjacent entries carry
different characters, expanding the entries gives the string back), and
`encrypt_string` is the run-by-run concatenation of the decimal run length and
the run's character; its length is `get_encrypt_size` of the runs. -/
theorem get_number_of_cons_substrings_spec (s : List Char) (hne : s ≠ []) (hnul : NUL ∉ s)
    (hrun : ∀ pair ∈ runs s, pair.2 < 2 ^ 31) :
    get_number_of_cons_substrings s = some (runs s) ∧
    (∀ pair ∈ runs s, 1 ≤ pair.2) ∧
    List.Chain' (fun p q : CharCount => p.1 ≠ q.1) (runs s) ∧
    expand (runs s) = s ∧
    encrypt_string s = some (encode (runs s)) ∧
    (encode (runs s)).length = get_encrypt_size (runs s) := by
  obtain ⟨c0, t, rfl⟩ : ∃ c0 t, s = c0 :: t := by
    cases s with
    | nil => exact absurd rfl hne
    | cons c0 t => exact ⟨c0, t, rfl⟩
  have hpos := runsFrom_count_pos t c0 1 (le_refl 1)
  have hcode := get_number_of_cons_substrings_cons c0 t hnul hrun
  refine ⟨hcode, hpos, runsFrom_chain t c0 1, ?_, ?_, (get_encrypt_size_eq _ hpos).symm⟩
  · show expand (runsFrom c0 1 t) = c0 :: t
    rw [expand_runsFrom]
    rfl
  · rw [encrypt_string_eq _ hne, hcode]
    rfl

/-- C19, amended, on the string `aaabcc`: the runs are `(a,3)`, `(b,1)`, `(c,2)`
and the code is `3a1b2c`. -/
theorem get_number_of_cons_substrings_spec_witness :
    ['a', 'a', 'a', 'b', 'c', 'c'] ≠ [] ∧ NUL ∉ ['a', 'a', 'a', 'b', 'c', 'c'] ∧
    (∀ pair ∈ runs ['a', 'a', 'a', 'b', 'c', 'c'], pair.2 < 2 ^ 31) ∧
    get_number_of_cons_substrings ['a', 'a', 'a', 'b', 'c', 'c']
      = some [('a', 3), ('b', 1), ('c', 2)] ∧
    encrypt_string ['a', 'a', 'a', 'b', 'c', 'c'] = some ['3', 'a', '1', 'b', '2', 'c'] ∧
    (encode (runs ['a', 'a', 'a', 'b', 'c', 'c'])).length
      = get_encrypt_size (runs ['a', 'a', 'a', 'b', 'c', 'c']) := by
  have hne : ['a', 'a', 'a', 'b', 'c', 'c'] ≠ [] := by simp
  have hnul : NUL ∉ ['a', 'a', 'a', 'b', 'c', 'c'] := by decide
  have hruns : runs ['a', 'a', 'a', 'b', 'c', 'c'] = [('a', 3), ('b', 1), ('c', 2)] := by
    decide
  have hrun : ∀ pair ∈ runs ['a', 'a', 'a', 'b', 'c', 'c'], pair.2 < 2 ^ 31 := by
    rw [hruns]
    intro pair hp
    simp only [List.mem_cons, List.mem_singleton, List.not_mem_nil, or_false] at hp
    rcases hp with rfl | rfl | rfl <;> norm_num
  have h := get_number_of_cons_substrings_spec _ hne hnul hrun
  refine ⟨hne, hnul, hrun, ?_, ?_, h.2.2.2.2.2⟩
  · rw [h.1, hruns]
  · have e1 : to_string 1 = ['1'] := by rw [to_string]; rfl
    have e2 : to_string 2 = ['2'] := by rw [to_string]; rfl
    have e3 : to_string 3 = ['3'] := by rw [to_string]; rfl
    rw [h.2.2.2.2.1, hruns]
    simp only [encode, List.flatMap_cons, List.flatMap_nil, e1, e2, e3, List.cons_append,
      List.nil_append, List.append_nil]

/-- C11, refuted as stated: the string of `2 ^ 31` letters `a` is made of
lowercase letters only, yet `encrypt_string` has no defined result on it (the
`int` counter of the run overflows), so the round trip does not give the string
back. -/
theorem decrypt_encrypt_overflow :
    (∀ ch ∈ List.replicate (2 ^ 31) 'a', islower ch) ∧
    encrypt_string (List.replicate (2 ^ 31) 'a') = none ∧
    (encrypt_string (List.replicate (2 ^ 31) 'a')).bind decrypt_string
      ≠ some (List.replicate (2 ^ 31) 'a') := by
  have hne : List.replicate (2 ^ 31) 'a' ≠ [] := by
    intro h
    have := congrArg List.length h
    rw [List.length_replicate] at this
    exact absurd this (by norm_num)
  have hnone : encrypt_string (List.replicate (2 ^ 31) 'a') = none := by
    rw [encrypt_string_eq _ hne, get_number_of_cons_substrings_replicate 'a' (2 ^ 31)
      (by unfold INT_MAX; norm_num)]
    rfl
  refine ⟨?_, hnone, ?_⟩
  · intro ch hch
    rw [List.eq_of_mem_replicate hch]
    exact ⟨by decide, by decide⟩
  · rw [hnone]
    intro h
    exact Option.noConfusion h

/-- C11, amended: for every string of lowercase letters, the empty string
included, in which every maximal run is shorter than `2 ^ 31` characters and
whose length fits a `size_t`, decrypting the encrypted string gives the string
back. -/
theorem decrypt_encrypt (s : List Char) (h : ∀ ch ∈ s, islower ch)
    (hrun : ∀ pair ∈ runs s, pair.2 < 2 ^ 31) (hsize : s.length < 2 ^ 64) :
    (encrypt_string s).bind decrypt_string = some s := by
  cases s with
  | nil => simp [encrypt_string, decrypt_string]
  | cons c0 t =>
    have hnul : NUL ∉ c0 :: t := fun hm => (islower_facts _ (h _ hm)).2.2 rfl
    have hne : (c0 :: t) ≠ [] := by simp
    have hexp : expand (runs (c0 :: t)) = c0 :: t := by
      show expand (runsFrom c0 1 t) = c0 :: t
      rw [expand_runsFrom]
      rfl
    rw [encrypt_string_eq _ hne, get_number_of_cons_substrings_cons c0 t hnul hrun]
    obtain ⟨m, rest, hr, _⟩ := runsFrom_head t c0 1
    simp only [Option.map_some', Option.some_bind]
    rw [decrypt_string_encode _ (by show runsFrom c0 1 t ≠ []; rw [hr]; simp), hexp]
    · intro pair hp
      have hl := islower_facts _ (h _ (runsFrom_char_mem t c0 1 pair hp))
      exact ⟨hl.1, hl.2.1⟩
    · rw [hexp]
      exact hsize

/-- C11, amended, on the string `aab`, whose code is `2a1b`. -/
theorem decrypt_encrypt_witness :
    (∀ ch ∈ ['a', 'a', 'b'], islower ch) ∧
    (∀ pair ∈ runs ['a', 'a', 'b'], pair.2 < 2 ^ 31) ∧
    ['a', 'a', 'b'].length < 2 ^ 64 ∧
    (encrypt_string ['a', 'a', 'b']).bind decrypt_string = some ['a', 'a', 'b'] := by
  have h : ∀ ch ∈ ['a', 'a', 'b'], islower ch := by
    intro ch hch
    simp only [List.mem_cons, List.mem_singleton, List.not_mem_nil, or_false] at hch
    rcases hch with rfl | rfl | rfl <;> exact ⟨by decide, by decide⟩
  have hruns : runs ['a', 'a', 'b'] = [('a', 2), ('b', 1)] := by decide
  have hrun : ∀ pair ∈ runs ['a', 'a', 'b'], pair.2 < 2 ^ 31 := by
    rw [hruns]
    intro pair hp
    simp only [List.mem_cons, List.mem_singleton, List.not_mem_nil, or_false] at hp
    rcases hp with rfl | rfl <;> norm_num
  have hsize : ['a', 'a', 'b'].length < 2 ^ 64 := by norm_num
  exact ⟨h, hrun, hsize, decrypt_encrypt _ h hrun hsize⟩

end StringCompr
